import Mathlib

set_option maxRecDepth 20000

/-!
Verification of the Daily Status Report (DSR) engine of this repository.

The Python sources (`.github/scripts/create_daily_issue.py` and
`Actions/GitHubAutomation/.github/scripts/...`) are shallowly embedded here.
Python strings are modelled as `List Char` (a Python `str` is a sequence of
code points); each embedded definition keeps the name and the step-for-step
structure of its source function.  Python operations used by the sources
(`str.strip`, `str.lower`, `str.split`, `in`, `str.startswith`) are modelled
by the `py*` helpers below.  `str.strip()` is modelled on the whitespace
characters that can actually occur in this data (space, tab, CR, LF).
-/

namespace DSR

abbrev Text := List Char

def txt (s : String) : Text := s.toList

/-- One ledger entry as handled by `create_daily_issue.py`: a
`(checked, text)` pair; an entry whose text starts with `'@'` is a category
marker. -/
abbrev Entry := Bool × Text

def isPySpace (c : Char) : Bool :=
  c == ' ' || c == '\t' || c == '\n' || c == '\r'

/-- Python `s.strip()`. -/
def pyStrip (s : Text) : Text :=
  ((s.dropWhile isPySpace).reverse.dropWhile isPySpace).reverse

/-- Python `s.lower()` (ASCII case mapping; the data never holds cased
non-ASCII letters). -/
def pyLower (s : Text) : Text := s.map Char.toLower

/-- Python `s.startswith(c)` for a one-character needle. -/
def startsWithChar (c : Char) : Text → Bool
  | [] => false
  | b :: _ => b == c

/-- Python `pat in s` (substring containment). -/
def containsSub (pat : Text) : Text → Bool
  | [] => pat.isPrefixOf ([] : Text)
  | c :: rest => pat.isPrefixOf (c :: rest) || containsSub pat rest

/-- Python `s.split(sep)[0]` for a multi-character separator: everything
before the first occurrence of `pat` (the whole text if `pat` is absent). -/
def beforeFirst (pat : Text) : Text → Text
  | [] => []
  | c :: rest => if pat.isPrefixOf (c :: rest) then [] else c :: beforeFirst pat rest

/-- Python `s.split(ch)` for a one-character separator. -/
def pySplitChar (ch : Char) : Text → List Text
  | [] => [[]]
  | c :: rest =>
    if c == ch then [] :: pySplitChar ch rest
    else
      match pySplitChar ch rest with
      | [] => [[c]]
      | t :: ts => (c :: t) :: ts

/-- Python `sep.join(parts)`. -/
def pyJoin (sep : Text) : List Text → Text
  | [] => []
  | [p] => p
  | p :: rest => p ++ sep ++ pyJoin sep rest

/-- Decimal rendering of a `Nat`, as Python `str(n)` inside an f-string. -/
def natText (n : Nat) : Text := (Nat.repr n).toList

/-! ## `merge_todos` (create_daily_issue.py, lines 234-298)

The Python function walks the existing todos building `result` (a list),
`todo_map` (a dict from item text to its index in `result`),
`processed_categories` (a set of lowercased category names) and
`current_category`; then walks the new todos.  The dict is modelled as an
association list with update-in-place semantics, the set as a list with
membership. -/

structure MergeState where
  result : List Entry
  todoMap : List (Text × Nat)
  processed : List Text
  current : Text

/-- Python dict assignment `m[k] = v` (update in place, else append). -/
def mapSet (m : List (Text × Nat)) (k : Text) (v : Nat) : List (Text × Nat) :=
  match m with
  | [] => [(k, v)]
  | (k', v') :: rest => if k' == k then (k, v) :: rest else (k', v') :: mapSet rest k v

/-- Python dict lookup `m[k]` / `k in m`. -/
def mapGet? (m : List (Text × Nat)) (k : Text) : Option Nat :=
  match m with
  | [] => none
  | (k', v) :: rest => if k' == k then some v else mapGet? rest k

/-- The index shift `merge_todos` applies to `todo_map` after an insertion:
`for t, idx in todo_map.items(): if idx >= threshold: todo_map[t] = idx + 1`. -/
def mapShift (m : List (Text × Nat)) (threshold : Nat) : List (Text × Nat) :=
  m.map (fun p => if threshold ≤ p.2 then (p.1, p.2 + 1) else p)

/-- First pass of `merge_todos` (lines 242-252): copy the existing todos,
de-duplicating category markers and indexing item texts. -/
def mergePass1 : List Entry → MergeState → MergeState
  | [], st => st
  | (checked, text) :: rest, st =>
    if startsWithChar '@' text then
      let cur := pyStrip (text.drop 1)
      let st' :=
        if st.processed.contains (pyLower cur) then { st with current := cur }
        else { st with result := st.result ++ [(false, '@' :: cur)],
                       processed := pyLower cur :: st.processed, current := cur }
      mergePass1 rest st'
    else
      mergePass1 rest { st with todoMap := mapSet st.todoMap text st.result.length,
                                result := st.result ++ [(checked, text)] }

/-- Embedding of `next((i for i, (_, t) in enumerate(result) if t.startswith('@') and
t[1:].strip().lower() == current_category.lower()), None)` (lines 275-276). -/
def findCategoryIdx (result : List Entry) (cur : Text) : Option Nat :=
  result.findIdx? (fun e => startsWithChar '@' e.2 &&
    pyLower (pyStrip (e.2.drop 1)) == pyLower cur)

/-- Embedding of `next((i for i, (_, t) in enumerate(result[start:], start=start) if
t.startswith('@')), len(result))` (lines 280-281). -/
def findNextMarkerIdx (result : List Entry) (start : Nat) : Nat :=
  match (result.drop start).findIdx? (fun e => startsWithChar '@' e.2) with
  | some j => start + j
  | none => result.length

/-- Second pass of `merge_todos` (lines 260-296): fold the new todos into
the state built from the existing ones. -/
def mergePass2 : List Entry → MergeState → MergeState
  | [], st => st
  | (checked, text) :: rest, st =>
    if startsWithChar '@' text then
      let cur := pyStrip (text.drop 1)
      let st' :=
        if st.processed.contains (pyLower cur) then { st with current := cur }
        else { st with result := st.result ++ [(false, '@' :: cur)],
                       processed := pyLower cur :: st.processed, current := cur }
      mergePass2 rest st'
    else
      let st' :=
        if st.current == txt "General" && !(st.processed.contains (txt "general")) then
          { st with result := (false, txt "@General") :: st.result,
                    processed := txt "general" :: st.processed }
        else st
      match findCategoryIdx st'.result st'.current with
      | none => mergePass2 rest st'
      | some ci =>
        let nextIdx := findNextMarkerIdx st'.result (ci + 1)
        match mapGet? st'.todoMap text with
        | none =>
          mergePass2 rest
            { st' with result := st'.result.insertIdx nextIdx (checked, text),
                       todoMap := mapSet (mapShift st'.todoMap nextIdx) text nextIdx }
        | some idx =>
          match st'.result.get? idx with
          | some e =>
            if checked && !e.1 then
              mergePass2 rest { st' with result := st'.result.set idx (true, text) }
            else mergePass2 rest st'
          | none => mergePass2 rest st'

/-- Embedding of `merge_todos(existing_todos, new_todos)` (lines 234-298), including the
pre-pass of lines 256-258 that inserts a leading `@General` marker when the
new todos carry no category marker at all. -/
def merge_todos (existing_todos new_todos : List Entry) : List Entry :=
  let st1 := mergePass1 existing_todos ⟨[], [], [], txt "General"⟩
  let st2 :=
    if !(new_todos.any (fun e => startsWithChar '@' e.2)) &&
       !(st1.processed.contains (txt "general")) then
      { st1 with result := (false, txt "@General") :: st1.result,
                 processed := txt "general" :: st1.processed }
    else st1
  (mergePass2 new_todos st2).result

/-! ## `CategoryManager` and `create_todo_section` (lines 42-78 and 300-387)

`CategoryManager._categories` is a dict from lowercased category key to the
first-seen display casing, seeded with `general -> General`; values are never
overwritten.  `create_todo_section` groups a flat `(checked, text)` list into
a `General` bucket plus an insertion-ordered `categorized` dict and renders
one collapsible block per non-empty category. -/

structure CategoryMgr where
  categories : List (Text × Text)
  current : Text

def catLookup (m : List (Text × Text)) (k : Text) : Option Text :=
  match m with
  | [] => none
  | (k', v) :: rest => if k' == k then some v else catLookup rest k

def initialCategoryMgr : CategoryMgr :=
  ⟨[(txt "general", txt "General")], txt "General"⟩

/-- Embedding of `CategoryManager.add_category` (lines 47-58): registers the stripped name
under its lowercase key if unseen and returns the first-seen display casing. -/
def add_category (mgr : CategoryMgr) (category : Text) : CategoryMgr × Text :=
  if category == [] then
    (mgr, (catLookup mgr.categories (txt "general")).getD (txt "General"))
  else
    let c := pyStrip category
    let kl := pyLower c
    match catLookup mgr.categories kl with
    | some disp => (mgr, disp)
    | none => ({ mgr with categories := mgr.categories ++ [(kl, c)] }, c)

/-- Embedding of `CategoryManager.set_current` (lines 68-73). -/
def set_current (mgr : CategoryMgr) (category : Text) : CategoryMgr :=
  if category == [] then
    { mgr with current := (catLookup mgr.categories (txt "general")).getD (txt "General") }
  else
    let (mgr', disp) := add_category mgr category
    { mgr' with current := disp }

/-- The `categorized[category_lower]` dict of `create_todo_section`:
`(key, first-seen display name, items)` in insertion order. -/
abbrev Categorized := List (Text × Text × List Entry)

def catAppend (cz : Categorized) (key name : Text) (item : Entry) : Categorized :=
  match cz with
  | [] => [(key, name, [item])]
  | (k, n, its) :: rest =>
    if k == key then (k, n, its ++ [item]) :: rest
    else (k, n, its) :: catAppend rest key name item

/-- The grouping loop of `create_todo_section` (lines 312-337): walk the
todos, maintaining the category manager, the `General` bucket and the
`categorized` dict. -/
def groupTodos : List Entry → CategoryMgr → List Entry → Categorized →
    CategoryMgr × List Entry × Categorized
  | [], mgr, general, cz => (mgr, general, cz)
  | (checked, text) :: rest, mgr, general, cz =>
    if startsWithChar '@' text then
      let (mgr1, disp) := add_category mgr (pyStrip (text.drop 1))
      groupTodos rest (set_current mgr1 disp) general cz
    else
      let category := mgr.current
      if category == txt "General" then
        groupTodos rest mgr (general ++ [(checked, text)]) cz
      else
        groupTodos rest mgr general (catAppend cz (pyLower category) category (checked, text))

def renderItem (e : Entry) : Text :=
  txt "- " ++ (if e.1 then txt "[x]" else txt "[ ]") ++ [' '] ++ e.2

def countChecked (items : List Entry) : Nat :=
  (items.filter (fun e => e.1)).length

/-- One rendered category block (the f-strings of lines 347-351 / 374-378). -/
def renderCatSection (name : Text) (items : List Entry) : Text :=
  txt "<details>\n<summary>📑 " ++ name ++ txt " (" ++ natText (countChecked items) ++
    [ '/' ] ++ natText items.length ++ txt ")</summary>\n\n" ++
    pyJoin (txt "\n") (items.map renderItem) ++ txt "\n</details>"

/-- The rendering loop over `categorized` (lines 357-381) with its
`processed_categories` set. -/
def renderCategorized : Categorized → List Text → List Text
  | [], _ => []
  | (key, name, items) :: rest, processed =>
    if items == [] || processed.contains key then renderCategorized rest processed
    else renderCatSection name items :: renderCategorized rest (key :: processed)

/-- Embedding of `create_todo_section(todos)` (lines 300-387). -/
def create_todo_section (todos : List Entry) : Text :=
  if todos == [] then []
  else
    let (_, general, cz) := groupTodos todos initialCategoryMgr [] []
    let (sections, processed) :=
      if general == [] then (([] : List Text), ([] : List Text))
      else ([renderCatSection (txt "General") general], [txt "general"])
    pyJoin (txt "\n\n") (sections ++ renderCategorized cz processed)

/-! ## `parse_existing_issue` (lines 184-232)

The two regexes are modelled as deterministic text functions with the same
matching semantics (leftmost match, greedy `\s*`/`\w+`, lazy `(.*?)`, and the
`$` of a non-MULTILINE Python pattern, which also matches just before a
final newline). -/

/-- Python `pat.isPrefixOf s` consume: `s` minus a literal prefix. -/
def dropPre? (pat s : Text) : Option Text :=
  if pat.isPrefixOf s then some (s.drop pat.length) else none

/-- Split at the first occurrence of `pat`: `(before, after it)`. -/
def splitAtFirst (pat : Text) : Text → Option (Text × Text)
  | [] => if pat == [] then some ([], []) else none
  | c :: rest =>
    if pat.isPrefixOf (c :: rest) then some ([], (c :: rest).drop pat.length)
    else (splitAtFirst pat rest).map (fun p => (c :: p.1, p.2))

def isWordChar (c : Char) : Bool := c.isAlphanum || c == '_'

/-- One attempt of the branch regex
`<details>\s*<summary><h3 style="display: inline;">✨\s*(\w+)</h3></summary>(.*?)</details>`
at the start of `s`; returns `(name, raw content, rest after the match)`. -/
def matchBranchAt (s : Text) : Option (Text × Text × Text) :=
  match dropPre? (txt "<details>") s with
  | none => none
  | some s1 =>
    match dropPre? (txt "<summary><h3 style=\"display: inline;\">✨") (s1.dropWhile isPySpace) with
    | none => none
    | some s3 =>
      let s4 := s3.dropWhile isPySpace
      let name := s4.takeWhile isWordChar
      if name == [] then none
      else
        match dropPre? (txt "</h3></summary>") (s4.dropWhile isWordChar) with
        | none => none
        | some s6 =>
          match splitAtFirst (txt "</details>") s6 with
          | none => none
          | some (content, rest) => some (name, content, rest)

/-- The `re.finditer` scan of the branch regex (lines 193-199): try a match
at every position, emit non-overlapping matches left to right.  The `Nat`
argument is a structural-recursion counter; `matchBranchAt_length` shows the
scan advances at every step, so a counter equal to the text length (as
supplied by `parseBranchBlocks`) is never exhausted. -/
def parseBranchBlocksAux : Nat → Text → List (Text × Text)
  | 0, _ => []
  | _ + 1, [] => []
  | n + 1, c :: rest =>
    match matchBranchAt (c :: rest) with
    | some (name, content, after) => (name, pyStrip content) :: parseBranchBlocksAux n after
    | none => parseBranchBlocksAux n rest

def parseBranchBlocks (s : Text) : List (Text × Text) :=
  parseBranchBlocksAux s.length s

/-- Python dict assignment for `result['branches'][name] = content`. -/
def dictInsert (d : List (Text × Text)) (k v : Text) : List (Text × Text) :=
  match d with
  | [] => [(k, v)]
  | (k', v') :: rest => if k' == k then (k, v) :: rest else (k', v') :: dictInsert rest k v

/-- The greedy `\s*\n\n` of the todo-region regex: consume the longest
whitespace prefix that leaves a literal `\n\n`, and return what follows. -/
def wsNlNlGo (s : Text) : Nat → Option Text
  | 0 => if (txt "\n\n").isPrefixOf s then some (s.drop 2) else none
  | k + 1 =>
    if (txt "\n\n").isPrefixOf (s.drop (k + 1)) then some (s.drop (k + 1 + 2))
    else wsNlNlGo s k

def wsNlNl (s : Text) : Option Text :=
  wsNlNlGo s (s.takeWhile isPySpace).length

/-- The lazy `(.*?)(?=\n\n<div align="center">|$)` capture: stop at the
first occurrence of the stop text, at the end, or (the `$` of a Python
non-MULTILINE pattern) just before a final newline. -/
def captureUntil (stop : Text) : Text → Text
  | [] => []
  | c :: rest =>
    if stop.isPrefixOf (c :: rest) then []
    else if c == '\n' && rest == [] then []
    else c :: captureUntil stop rest

/-- Embedding of `re.search` of the todo-region regex
`## 📝 Todo\s*\n\n(.*?)(?=\n\n<div align="center">|$)` (line 202): the
leftmost position where the header and the `\s*\n\n` both match wins. -/
def findTodoRegion : Text → Option Text
  | [] => none
  | c :: rest =>
    if (txt "## 📝 Todo").isPrefixOf (c :: rest) then
      match wsNlNl ((c :: rest).drop (txt "## 📝 Todo").length) with
      | some r => some (captureUntil (txt "\n\n<div align=\"center\">") r)
      | none => findTodoRegion rest
    else findTodoRegion rest

/-- The line loop over the captured todo section (lines 207-230).  The only
Python operation that can raise is `line.split('📑')[1]`, modelled by
`List.get? 1`; a `none` result models an `IndexError`. -/
def parseTodoLines : List Text → Text → Option (List Entry)
  | [], _ => some []
  | line :: rest, cur =>
    let l := pyStrip line
    if l == [] then parseTodoLines rest cur
    else if containsSub (txt "<details>") l then parseTodoLines rest cur
    else if containsSub (txt "</details>") l then parseTodoLines rest cur
    else if containsSub (txt "<summary>📑") l then
      match (pySplitChar '📑' l).get? 1 with
      | none => none
      | some mid =>
        let c := pyStrip (beforeFirst (txt "</summary>") mid)
        (parseTodoLines rest c).map (fun ts => (false, '@' :: c) :: ts)
    else if (txt "- [ ] ").isPrefixOf l then
      (parseTodoLines rest cur).map (fun ts => (false, l.drop 6) :: ts)
    else if (txt "- [x] ").isPrefixOf l then
      (parseTodoLines rest cur).map (fun ts => (true, l.drop 6) :: ts)
    else parseTodoLines rest cur

structure ParsedIssue where
  branches : List (Text × Text)
  todos : List Entry
  deriving DecidableEq

/-- Embedding of `parse_existing_issue(body)` (lines 184-232).  Returns `none` exactly
when the Python function would raise. -/
def parse_existing_issue (body : Text) : Option ParsedIssue :=
  let blocks := parseBranchBlocks body
  let branches := blocks.foldl (fun d p => dictInsert d p.1 p.2) []
  match findTodoRegion body with
  | none => some ⟨branches, []⟩
  | some captured =>
    let sec := pyStrip captured
    if sec == [] then some ⟨branches, []⟩
    else (parseTodoLines (pySplitChar '\n' sec) (txt "General")).map (⟨branches, ·⟩)

/-- The body template written by `main` (lines 798-814; the creation branch
of lines 829-849 uses the same skeleton). -/
def updated_body (issue_title : Text) (branches : List (Text × Text)) (todos : List Entry) :
    Text :=
  txt "# " ++ issue_title ++
  txt "\n\n<div align=\"center\">\n\n## 📊 Branch Summary\n\n</div>\n\n" ++
  pyJoin [] (branches.map (fun p =>
    txt "<details>\n<summary><h3 style=\"display: inline;\">✨ " ++ p.1 ++
    txt "</h3></summary>\n\n" ++ p.2 ++ txt "\n</details>")) ++
  txt "\n\n<div align=\"center\">\n\n## 📝 Todo\n\n</div>\n\n" ++
  create_todo_section todos

/-! ### Idempotence of `merge_todos` on well-formed ledgers

A ledger is well-formed when it holds at least one category marker, its
markers are unchecked with already-trimmed names that are pairwise distinct
case-insensitively, and its item texts are pairwise distinct.  On such a
ledger `merge_todos L L = L`; the counterexample theorems show each escape
hatch (no marker at all synthesizes `@General`, a checked copy can clobber a
foreign slot). -/

def isMarkerE (e : Entry) : Bool := startsWithChar '@' e.2

def markerLowersOf (L : List Entry) : List Text :=
  (L.filter (fun e => isMarkerE e)).map (fun e => pyLower (e.2.drop 1))

def itemTextsOf (L : List Entry) : List Text :=
  (L.filter (fun e => !isMarkerE e)).map (fun e => e.2)

/-- The todo-map `mergePass1` builds: each item text mapped to its index. -/
def itemIdx : List Entry → Nat → List (Text × Nat)
  | [], _ => []
  | e :: rest, n =>
    if isMarkerE e then itemIdx rest (n + 1) else (e.2, n) :: itemIdx rest (n + 1)

/-- The processed-category set `mergePass1` builds (markers prepend). -/
def revMarkerLowers : List Entry → List Text → List Text
  | [], p => p
  | e :: rest, p =>
    if isMarkerE e then revMarkerLowers rest (pyLower (pyStrip (e.2.drop 1)) :: p)
    else revMarkerLowers rest p

/-- The `current_category` left behind by a pass: the last marker's name. -/
def lastMarkerName : List Entry → Text → Text
  | [], d => d
  | e :: rest, d =>
    if isMarkerE e then lastMarkerName rest (pyStrip (e.2.drop 1))
    else lastMarkerName rest d

/-! ### The grouped form of a serializer-produced ledger -/

/-- A ledger grouped into categories: `(display name, items)` per category,
as the serializer itself groups it. -/
abbrev Grouped := List (Text × List Entry)

/-- The flat `(checked, text)` ledger corresponding to a grouped ledger. -/
def flattenGrouped (G : Grouped) : List Entry :=
  G.flatMap (fun g => (false, '@' :: g.1) :: g.2)

/-- The category-header text `create_todo_section` renders for a group:
display name plus the ` (completed/total)` counter. -/
def decoName (g : Text × List Entry) : Text :=
  g.1 ++ txt " (" ++ natText (countChecked g.2) ++ ['/'] ++ natText g.2.length ++ txt ")"

/-- What `parse_existing_issue` recovers from a serialized grouped ledger:
each category marker comes back with the counter suffix still attached. -/
def decorateGrouped (G : Grouped) : List Entry :=
  G.flatMap (fun g => (false, '@' :: decoName g) :: g.2)

/-- The individual lines of one rendered category block. -/
def blockLines (g : Text × List Entry) : List Text :=
  [txt "<details>", txt "<summary>📑 " ++ decoName g ++ txt "</summary>", []] ++
    g.2.map renderItem ++ [txt "</details>"]

/-- Blocks laid out with one empty separator line between them, as the
`'\n\n'.join` of the source produces. -/
def interBlocks : List (List Text) → List Text
  | [] => []
  | [b] => b
  | b :: rest => b ++ [] :: interBlocks rest

/-- Well-formedness of one group for the round trip: the display name is
trimmed, non-empty and free of `<`, `📑` and newlines; the items are
non-empty, and every item text is trimmed, non-empty, free of `<` and
newlines and is not a category marker. -/
def wfGroup (g : Text × List Entry) : Prop :=
  pyStrip g.1 = g.1 ∧ g.1 ≠ [] ∧ '<' ∉ g.1 ∧ '📑' ∉ g.1 ∧ '\n' ∉ g.1 ∧
  g.2 ≠ [] ∧
  ∀ e ∈ g.2, startsWithChar '@' e.2 = false ∧ pyStrip e.2 = e.2 ∧ e.2 ≠ [] ∧
    '<' ∉ e.2 ∧ '\n' ∉ e.2

instance (g : Text × List Entry) : Decidable (wfGroup g) := by
  unfold wfGroup
  infer_instance

/-! ## `is_commit_already_logged` (lines 446-472)

`existing_content['branches']` is modelled as the association list of
`(branch name, accumulated branch content)`; the loop over `.values()`
becomes `List.any` over the second components. -/

def is_commit_already_logged (commit_message : Text) (branches : List (Text × Text)) : Bool :=
  let parts := pySplitChar '\n' commit_message
  let commit_title := pyStrip (parts.headD [])
  let commit_body := pyStrip (pyJoin ['\n'] (parts.drop 1))
  branches.any (fun bc =>
    containsSub commit_title bc.2 &&
    (commit_body == [] || containsSub commit_body bc.2))

/-! ## `is_merge_commit_message` (lines 18-20) and the commit filter of
`main` (lines 679-702)

The Python loop iterates over `commits_to_process` while appending the
child commits of encountered merge commits to its end; this is the queue
recursion below.  A commit is modelled by its message; `children` gives
the messages `get_merge_commits` would return for it (empty when the
commit does not have two parents or the comparison fails).  The `Nat`
argument is a structural-recursion counter standing for the finitely many
iterations the Python loop performs. -/

def is_merge_commit_message (message : Text) : Bool :=
  (txt "Merge").isPrefixOf message

def commitFilterAux (children : Text → List Text) (branches : List (Text × Text)) :
    Nat → List Text → List Text → List Text
  | 0, _, _ => []
  | _ + 1, [], _ => []
  | fuel + 1, m :: rest, seen =>
    let msg := pyStrip m
    if is_merge_commit_message msg then
      commitFilterAux children branches fuel (rest ++ children m) seen
    else if !(seen.contains msg) && !(is_commit_already_logged msg branches) then
      m :: commitFilterAux children branches fuel rest (msg :: seen)
    else
      commitFilterAux children branches fuel rest seen

/-- The duplicate-removal pass of `get_merge_commits` (lines 507-522) over
the two parent commit lists, keyed by the stripped message. -/
def dedupGo : List Text → List Text → List Text
  | [], _ => []
  | m :: rest, seen =>
    if seen.contains (pyStrip m) then dedupGo rest seen
    else m :: dedupGo rest (pyStrip m :: seen)

def get_merge_commits_dedup (commits1 commits2 : List Text) : List Text :=
  dedupGo (commits1 ++ commits2) []

/-! ## The previous-issue rotation of `main` (lines 665-677) -/

/-- The fields of a GitHub issue record the rotation reads. -/
structure Issue where
  number : Nat
  title : Text
  body : Text
  createdAt : Nat
  deriving DecidableEq

def is_daily_log_issue (issue_title : Text) : Bool :=
  (txt "📅 Daily Development Log").isPrefixOf issue_title

/-- Line 670: the unchecked todos of a parsed body (`parse_existing_issue`
never raises, so the `getD` default is unreachable). -/
def uncheckedTodosOf (body : Text) : List Entry :=
  (((parse_existing_issue body).getD ⟨[], []⟩).todos.filter
    (fun td => !td.1)).map (fun td => (false, td.2))

/-- The `issue != today_issue` test, with today's issue identified by its
number when it exists. -/
def isTodayIssue (today : Option Nat) (n : Nat) : Bool :=
  match today with
  | some m => m == n
  | none => false

/-- Lines 666-677: walk the open issues; every daily-log issue other than
today's contributes its unchecked todos to `previous_todos` and is closed.
Returns `(previous_todos, closed issue numbers)`. -/
def processPreviousIssues : List Issue → Option Nat → List Entry × List Nat
  | [], _ => ([], [])
  | i :: rest, today =>
    if isTodayIssue today i.number || !(is_daily_log_issue i.title) then
      processPreviousIssues rest today
    else
      let (todos, closed) := processPreviousIssues rest today
      (uncheckedTodosOf i.body ++ todos, i.number :: closed)

/-! ## The write-effect trace of a `main` run

`main` performs its GitHub writes in this order: the rotation loop closes
every previous daily-log issue (line 676); then, once per processed
commit, `create_commit_section` comments on each referenced issue
(line 153) and `main` writes the updated body of today's issue
(line 816). -/

inductive Effect where
  | closeIssue (n : Nat)
  | comment (n : Nat)
  | editBody (n : Nat)
  deriving DecidableEq

def isCloseEffect : Effect → Bool
  | Effect.closeIssue _ => true
  | _ => false

def rotationEffects (issues : List Issue) (today : Option Nat) : List Effect :=
  ((processPreviousIssues issues today).2).map Effect.closeIssue

/-- The writes of one iteration of the commit loop (lines 723-817) when
today's issue exists: `refs` are the issue numbers referenced by the
commit message (line 134). -/
def commitEffects (todayNum : Nat) (refs : List Nat) : List Effect :=
  refs.map Effect.comment ++ [Effect.editBody todayNum]

def mainEffects (issues : List Issue) (todayNum : Nat)
    (commitRefs : List (List Nat)) : List Effect :=
  rotationEffects issues (some todayNum) ++
    commitRefs.flatMap (commitEffects todayNum)

/-! ## `parse_commit_message` (lines 22-40)

The regex
`(?i)\[(.*?)\] (.*?)(?:\s*\n\s*\[body\](.*?))?(?:\s*\n\s*\[todo\](.*?))?(?:\s*\n\s*\[footer\](.*?))?$`
with `re.DOTALL | re.IGNORECASE` is modelled as a deterministic
backtracking matcher: `re.search` scans for the leftmost `[` at which the
rest matches; each lazy `(.*?)` tries splits shortest-first
(`splitsAsc`); each optional section group is tried with the group first;
a section header `\s*\n\s*\[kw\]` consumes exactly the maximal whitespace
run (which must contain a newline) followed by the case-insensitive
literal; the final `$` of the non-MULTILINE pattern matches at the end or
just before a final newline. -/

def splitsAsc : Text → List (Text × Text)
  | [] => [([], [])]
  | c :: rest => ([], c :: rest) :: (splitsAsc rest).map (fun p => (c :: p.1, p.2))

def matchEnd (s : Text) : Bool := s == [] || s == ['\n']

def matchSecHdr (kw : Text) (s : Text) : Option Text :=
  let w := s.takeWhile isPySpace
  let rest := s.drop w.length
  if w.contains '\n' && ('[' :: kw ++ [']']).isPrefixOf (pyLower rest) then
    some (rest.drop (kw.length + 2))
  else none

def pcmFooter (r : Text) : Option (Option Text) :=
  match matchSecHdr (txt "footer") r with
  | some r1 =>
    match (splitsAsc r1).findSome?
        (fun p => if matchEnd p.2 then some p.1 else none) with
    | some g5 => some (some g5)
    | none => if matchEnd r then some none else none
  | none => if matchEnd r then some none else none

def pcmTodo (r : Text) : Option (Option Text × Option Text) :=
  match matchSecHdr (txt "todo") r with
  | some r1 =>
    match (splitsAsc r1).findSome?
        (fun p => (pcmFooter p.2).map (fun f => (some p.1, f))) with
    | some res => some res
    | none => (pcmFooter r).map (fun f => (none, f))
  | none => (pcmFooter r).map (fun f => (none, f))

def pcmBody (r : Text) : Option (Option Text × Option Text × Option Text) :=
  match matchSecHdr (txt "body") r with
  | some r1 =>
    match (splitsAsc r1).findSome?
        (fun p => (pcmTodo p.2).map (fun tf => (some p.1, tf))) with
    | some res => some res
    | none => (pcmTodo r).map (fun tf => (none, tf))
  | none => (pcmTodo r).map (fun tf => (none, tf))

/-- Group 2 and the section groups, matched after the literal `"] "`: the
lazy group 2 grows from the shortest split whose remainder matches the
section groups and `$`. -/
def pcmTail : Text → Option (Text × Option Text × Option Text × Option Text)
  | [] => (pcmBody []).map (fun bs => (([] : Text), bs))
  | c :: rest =>
    match (pcmBody (c :: rest)).map (fun bs => (([] : Text), bs)) with
    | some r => some r
    | none => (pcmTail rest).map (fun q => (c :: q.1, q.2))

/-- Group 1 and the rest, matched after a `[`: the lazy group 1 grows from
the shortest split followed by the literal `"] "`. -/
def pcmAt : Text → Option (Text × Text × Option Text × Option Text × Option Text)
  | [] => none
  | c :: rest =>
    match (if (txt "] ").isPrefixOf (c :: rest) then
        (pcmTail ((c :: rest).drop 2)).map (fun t => (([] : Text), t))
      else none) with
    | some r => some r
    | none => (pcmAt rest).map (fun g => (c :: g.1, g.2))

/-- The `re.search` scan: try a match at every position, leftmost wins. -/
def pcmScan : Text → Option (Text × Text × Option Text × Option Text × Option Text)
  | [] => none
  | c :: rest =>
    if c == '[' then
      match pcmAt rest with
      | some g => some g
      | none => pcmScan rest
    else pcmScan rest

/-- Embedding of `COMMIT_TYPES` (lines 7-16), as `type key ↦ label`. -/
def COMMIT_TYPES : List (Text × Text) :=
  [(txt "feat", txt "feature"), (txt "fix", txt "bug"),
   (txt "refactor", txt "refactor"), (txt "docs", txt "documentation"),
   (txt "test", txt "test"), (txt "chore", txt "chore"),
   (txt "style", txt "style"), (txt "perf", txt "performance")]

structure ParsedCommit where
  type : Text
  label : Text
  title : Text
  body : Option Text
  todo : Option Text
  footer : Option Text
  deriving DecidableEq

/-- Embedding of `parse_commit_message(message)`: `none` models the `return None` on a
failed search; `label` is `type_info['label']`, with the `'other'`
fallback of `COMMIT_TYPES.get` (line 31). -/
def parse_commit_message (message : Text) : Option ParsedCommit :=
  (pcmScan message).map (fun g =>
    let commit_type := pyLower g.1
    { type := commit_type
      label := ((catLookup COMMIT_TYPES commit_type).getD (txt "other"))
      title := g.2.1
      body := g.2.2.1
      todo := g.2.2.2.1
      footer := g.2.2.2.2 })

end DSR

/-! ## The GitHubAutomation reimplementation
(`src/Actions/GitHubAutomation/.github/scripts/domains/reporting/daily.py`) -/

namespace GHAuto

open DSR (Text txt pyStrip pyLower containsSub startsWithChar pySplitChar pyJoin
  isPySpace natText)

/-- Embedding of `TodoItem` (daily.py lines 12-20), the fields `_parse_existing_todos`
populates. -/
structure TodoItem where
  category : Text
  task : Text
  completed : Bool
  issue_ref : Option Text
  issue_number : Option Nat
  deriving DecidableEq

def dropTrailingWs (t : Text) : Text := (t.reverse.dropWhile isPySpace).reverse

def digitsToNat (ds : Text) : Nat :=
  ds.foldl (fun a c => a * 10 + (c.toNat - '0'.toNat)) 0

/-- The issue-reference extraction of `_parse_existing_todos`
(daily.py lines 329-343): `re.search(r'\(#(\d+)\)\s*$', task)`, the matching
`re.sub`, and the legacy `task.startswith('#')` branch.  Returns the final
`(task, issue_ref, issue_number)`. -/
def extractIssueRef (task : Text) : Text × Option Text × Option Nat :=
  let t1 := dropTrailingWs task
  let matched : Option (Text × Text) :=
    match t1.reverse with
    | ')' :: r1 =>
      let digits := (r1.takeWhile Char.isDigit).reverse
      let r2 := r1.dropWhile Char.isDigit
      if digits == [] then none
      else
        match r2 with
        | '#' :: '(' :: r3 => some (r3.reverse, digits)
        | _ => none
    | _ => none
  match matched with
  | some (pre, digits) =>
    (pyStrip (dropTrailingWs pre), some ('#' :: natText (digitsToNat digits)),
      some (digitsToNat digits))
  | none =>
    if startsWithChar '#' task then
      (task, some (task.takeWhile (fun c => !isPySpace c)), none)
    else (task, none, none)

/-- Embedding of `DailyReporter._parse_existing_todos` (daily.py lines 287-353).  The
Python indexing `line[3]` raises `IndexError` when a stripped line is
exactly `"- ["`; that raise is modelled by `none`. -/
def parseExistingTodosLoop : List Text → Text → Bool → Option (List TodoItem)
  | [], _, _ => some []
  | line :: rest, cur, inTodo =>
    let l := pyStrip line
    if containsSub (txt "## 📝 Todo") l || containsSub (txt "[Todo]") l then
      parseExistingTodosLoop rest cur true
    else if inTodo && (txt "##").isPrefixOf l && !containsSub (txt "📝 Todo") l then
      parseExistingTodosLoop rest cur false
    else if !inTodo then parseExistingTodosLoop rest cur inTodo
    else if startsWithChar '@' l then
      parseExistingTodosLoop rest (pyStrip (l.drop 1)) inTodo
    else if (txt "- [").isPrefixOf l then
      match l.get? 3 with
      | none => none
      | some ch =>
        let completed := ch == 'x'
        let task0 := pyStrip (l.drop 6)
        let (task, ref, num) := extractIssueRef task0
        (parseExistingTodosLoop rest cur inTodo).map
          (fun ts => ⟨cur, task, completed, ref, num⟩ :: ts)
    else parseExistingTodosLoop rest cur inTodo

def parseExistingTodos (issue_body : Text) : Option (List TodoItem) :=
  if issue_body == [] then some []
  else parseExistingTodosLoop (pySplitChar '\n' issue_body) (txt "General") false

/-! ## `CommitParser` (`domains/commits/parser.py`)

`title_pattern = ^\[([^(\]]+)(?:\(([^)]+)\))?\]\s*(.+)$` is deterministic:
the character classes exclude the delimiters, so greedy matching admits no
backtracking except the `\s*`/`(.+)` boundary when nothing follows the
whitespace. -/

def pyUpper (s : Text) : Text := s.map Char.toUpper

/-- Embedding of `COMMIT_TYPES` (parser.py lines 24-27). -/
def COMMIT_TYPES_GH : List Text :=
  [txt "feat", txt "fix", txt "docs", txt "style", txt "refactor", txt "test",
   txt "chore", txt "design", txt "comment", txt "rename", txt "remove",
   txt "debug", txt "!BREAKING CHANGE", txt "!HOTFIX"]

/-- Embedding of `(.+)$` of a non-DOTALL pattern, anchored at the start of `t`: a
nonempty newline-free capture reaching the end or the position just before
a final newline. -/
def titleTailAt (t : Text) : Option Text :=
  let c := t.takeWhile (fun ch => !(ch == '\n'))
  if c == [] then none
  else if c.length == t.length then some c
  else if c.length + 1 == t.length && t.getLast? == some '\n' then some c
  else none

/-- Embedding of `\s*(.+)$`: the greedy whitespace run backtracks longest-first. -/
def titleTailGo (r3 : Text) : Nat → Option Text
  | 0 => titleTailAt r3
  | k + 1 =>
    match titleTailAt (r3.drop (k + 1)) with
    | some c => some c
    | none => titleTailGo r3 k

def titleTail (r3 : Text) : Option Text :=
  titleTailGo r3 (r3.takeWhile isPySpace).length

/-- The anchored match of `title_pattern` on the title line; returns
`(group 1, optional scope, group 3)`. -/
def titleMatch (line : Text) : Option (Text × Option Text × Text) :=
  match line with
  | '[' :: rest =>
    let g1 := rest.takeWhile (fun c => !(c == '(' || c == ']'))
    if g1 == [] then none
    else
      let r1 := rest.drop g1.length
      let scopeStep : Option (Option Text × Text) :=
        match r1 with
        | '(' :: r1x =>
          let g2 := r1x.takeWhile (fun c => !(c == ')'))
          if g2 == [] then none
          else if ((r1x.drop g2.length).head? == some ')') then
            some (some g2, r1x.drop (g2.length + 1))
          else none
        | _ => some (none, r1)
      match scopeStep with
      | none => none
      | some (scope, r2) =>
        match r2 with
        | ']' :: r3 =>
          (titleTail r3).map (fun g3 => (g1, scope, g3))
        | _ => none
  | _ => none

/-- Embedding of `section_patterns` (parser.py lines 36-40): `^\[Body\]\s*$` etc.,
case-insensitively, tried in insertion order. -/
def isSectionHdr (kw : Text) (l : Text) : Bool :=
  ('[' :: kw ++ [']']).isPrefixOf (pyLower l) && (l.drop (kw.length + 2)).all isPySpace

inductive Sec where
  | body | todo | footer
  deriving DecidableEq

def sectionOf (l : Text) : Option Sec :=
  if isSectionHdr (txt "body") l then some Sec.body
  else if isSectionHdr (txt "todo") l then some Sec.todo
  else if isSectionHdr (txt "footer") l then some Sec.footer
  else none

/-- Embedding of `todo_category_pattern = ^@(.+?)\s*$`: the lazy newline-free capture
is the text up to the trailing whitespace run. -/
def todoCatMatch (l : Text) : Option Text :=
  match l with
  | '@' :: rest =>
    if rest == [] then none
    else
      let core := dropTrailingWs rest
      if core == [] then
        match rest.head? with
        | some c => if c == '\n' then none else some [c]
        | none => none
      else if core.contains '\n' then none
      else some core
  | _ => none

/-- Embedding of `todo_item_pattern = ^-\s+(.+)$`: at least one whitespace character,
then as for the title tail. -/
def todoItemGo (r : Text) : Nat → Option Text
  | 0 => none
  | k + 1 =>
    match titleTailAt (r.drop (k + 1)) with
    | some c => some c
    | none => todoItemGo r k

def todoItemMatch (l : Text) : Option Text :=
  match l with
  | '-' :: r => todoItemGo r (r.takeWhile isPySpace).length
  | _ => none

/-- Embedding of `_parse_todo_line` (parser.py lines 128-147). -/
def parseTodoLineGH (l : Text) (items : List (Text × Text)) (cur : Option Text) :
    List (Text × Text) × Option Text :=
  match todoCatMatch l with
  | some c => (items, some c)
  | none =>
    match todoItemMatch l with
    | some task => (items ++ [((cur.getD (txt "General")), task)], cur)
    | none => (items, cur)

/-- The section loop of `CommitParser.parse` (parser.py lines 92-116). -/
def sectionLoop : List Text → Option Sec → Option Text → List Text →
    List (Text × Text) → List Text → List Text × List (Text × Text) × List Text
  | [], _, _, bs, ts, fs => (bs, ts, fs)
  | line :: rest, sec, cat, bs, ts, fs =>
    let l := pyStrip line
    match sectionOf l with
    | some s => sectionLoop rest (some s) cat bs ts fs
    | none =>
      if l == [] then sectionLoop rest sec cat bs ts fs
      else
        match sec with
        | some Sec.body => sectionLoop rest sec cat (bs ++ [l]) ts fs
        | some Sec.todo =>
          let (ts2, cat2) := parseTodoLineGH l ts cat
          sectionLoop rest sec cat2 bs ts2 fs
        | some Sec.footer => sectionLoop rest sec cat bs ts (fs ++ [l])
        | none => sectionLoop rest sec cat bs ts fs

structure CommitData where
  type : Text
  scope : Option Text
  title : Text
  body : List Text
  todos : List (Text × Text)
  footer : List Text
  breaking : Bool
  deriving DecidableEq

/-- Embedding of `CommitParser.parse` (parser.py lines 46-126): `none` models a raised
`ValueError` (empty message, bad title format, or unknown commit type). -/
def CommitParser_parse (commit_message : Text) : Option CommitData :=
  let lines := pySplitChar '\n' (pyStrip commit_message)
  let title_line := pyStrip (lines.headD [])
  match titleMatch title_line with
  | none => none
  | some (g1, scope, g3) =>
    let raw := pyStrip g1
    let commit_type := if startsWithChar '!' raw then pyUpper raw else pyLower raw
    if !(COMMIT_TYPES_GH.contains commit_type) then none
    else
      let bts := sectionLoop (lines.drop 1) none none [] [] []
      some ⟨commit_type, scope, pyStrip g3, bts.1, bts.2.1, bts.2.2,
        startsWithChar '!' commit_type⟩

end GHAuto

namespace DSR

theorem length_dropPre? {pat s s' : Text} (h : dropPre? pat s = some s') :
    s'.length ≤ s.length := by
  unfold dropPre? at h
  split at h
  · cases h; simp [List.length_drop]
  · cases h

theorem length_splitAtFirst {pat : Text} : ∀ {s pre post : Text},
    splitAtFirst pat s = some (pre, post) → post.length ≤ s.length := by
  intro s
  induction s with
  | nil =>
    intro pre post h
    unfold splitAtFirst at h
    split at h <;> simp_all
  | cons c rest ih =>
    intro pre post h
    unfold splitAtFirst at h
    split at h
    · cases h; simp [List.length_drop]
    · cases hrec : splitAtFirst pat rest with
      | none => rw [hrec] at h; cases h
      | some p =>
        rw [hrec] at h
        cases h
        have := ih (show splitAtFirst pat rest = some (p.1, p.2) from by rw [hrec])
        simp at this ⊢
        omega

theorem length_dropWhile_le (p : Char → Bool) (s : Text) :
    (s.dropWhile p).length ≤ s.length := by
  induction s with
  | nil => simp
  | cons c rest ih =>
    rw [List.dropWhile]
    split <;> simp <;> omega

theorem matchBranchAt_length {s : Text} {t : Text × Text × Text}
    (h : matchBranchAt s = some t) : t.2.2.length < s.length := by
  unfold matchBranchAt at h
  cases h1 : dropPre? (txt "<details>") s with
  | none => rw [h1] at h; cases h
  | some s1 =>
    rw [h1] at h
    dsimp only at h
    cases h2 : dropPre? (txt "<summary><h3 style=\"display: inline;\">✨")
        (s1.dropWhile isPySpace) with
    | none => rw [h2] at h; cases h
    | some s3 =>
      rw [h2] at h
      dsimp only at h
      split at h
      · cases h
      · cases h3 : dropPre? (txt "</h3></summary>")
            ((s3.dropWhile isPySpace).dropWhile isWordChar) with
        | none => rw [h3] at h; cases h
        | some s6 =>
          rw [h3] at h
          dsimp only at h
          cases h4 : splitAtFirst (txt "</details>") s6 with
          | none => rw [h4] at h; cases h
          | some p =>
            rw [h4] at h
            dsimp only at h
            cases p with
            | mk content' rest' =>
              cases h
              have e4 : rest'.length ≤ s6.length := length_splitAtFirst h4
              have e3 : s6.length ≤ ((s3.dropWhile isPySpace).dropWhile isWordChar).length :=
                length_dropPre? h3
              have e3b : ((s3.dropWhile isPySpace).dropWhile isWordChar).length ≤ s3.length :=
                le_trans (length_dropWhile_le _ _) (length_dropWhile_le _ _)
              have e2 : s3.length ≤ (s1.dropWhile isPySpace).length := length_dropPre? h2
              have e2b : (s1.dropWhile isPySpace).length ≤ s1.length :=
                length_dropWhile_le _ _
              have e1 : s1.length + 9 = s.length := by
                unfold dropPre? at h1
                split at h1
                · cases h1
                  rename_i hpre
                  have hp : txt "<details>" <+: s := List.isPrefixOf_iff_prefix.mp hpre
                  have : (txt "<details>").length ≤ s.length := hp.length_le
                  simp [List.length_drop, txt] at *
                  omega
                · cases h1
              simp only
              omega

/-! ### Totality of `parse_existing_issue`

The only Python operation in `parse_existing_issue` that can raise is
`line.split('📑')[1]`, and it is guarded by `'<summary>📑' in line`; the
guard guarantees a `'📑'` occurrence, hence at least two split parts. -/

theorem mem_of_containsSub {pat l : Text} {c : Char}
    (h : containsSub pat l = true) (hc : c ∈ pat) : c ∈ l := by
  induction l with
  | nil =>
    unfold containsSub at h
    have : pat = [] := by
      cases pat with
      | nil => rfl
      | cons a r => simp [List.isPrefixOf] at h
    subst this
    cases hc
  | cons a rest ih =>
    unfold containsSub at h
    rcases Bool.or_eq_true_iff.mp h with hp | hrec
    · exact (List.isPrefixOf_iff_prefix.mp hp).subset hc
    · exact List.mem_cons_of_mem a (ih hrec)

theorem pySplitChar_ne_nil (ch : Char) (l : Text) : pySplitChar ch l ≠ [] := by
  induction l with
  | nil => simp [pySplitChar]
  | cons c rest ih =>
    unfold pySplitChar
    split
    · simp
    · cases h : pySplitChar ch rest with
      | nil => exact absurd h ih
      | cons t ts => simp

theorem pySplitChar_length_ge_two {ch : Char} {l : Text} (h : ch ∈ l) :
    2 ≤ (pySplitChar ch l).length := by
  induction l with
  | nil => cases h
  | cons c rest ih =>
    unfold pySplitChar
    by_cases hc : c = ch
    · simp only [hc, beq_self_eq_true, if_pos]
      have := pySplitChar_ne_nil ch rest
      cases hsp : pySplitChar ch rest with
      | nil => exact absurd hsp this
      | cons t ts => simp
    · have hmem : ch ∈ rest := by
        cases h with
        | head => exact absurd rfl hc
        | tail _ hm => exact hm
      have h2 := ih hmem
      simp only [show (c == ch) = false by simp [hc], if_neg]
      cases hsp : pySplitChar ch rest with
      | nil => exact absurd hsp (pySplitChar_ne_nil ch rest)
      | cons t ts =>
        rw [hsp] at h2
        simpa using h2

theorem parseTodoLines_isSome (lines : List Text) (cur : Text) :
    (parseTodoLines lines cur).isSome := by
  induction lines generalizing cur with
  | nil => simp [parseTodoLines]
  | cons line rest ih =>
    unfold parseTodoLines
    dsimp only
    split
    · exact ih cur
    · split
      · exact ih cur
      · split
        · exact ih cur
        · split
          · rename_i hsum
            have hmem : '📑' ∈ pyStrip line :=
              mem_of_containsSub hsum (by decide)
            have hlen := pySplitChar_length_ge_two hmem
            cases hsp : (pySplitChar '📑' (pyStrip line)).get? 1 with
            | none =>
              rw [List.get?_eq_none] at hsp
              omega
            | some mid => simp [hsp, Option.isSome_map, ih]
          · split
            · simp [Option.isSome_map, ih]
            · split
              · simp [Option.isSome_map, ih]
              · exact ih cur

theorem parse_existing_issue_isSome (body : Text) :
    (parse_existing_issue body).isSome := by
  unfold parse_existing_issue
  dsimp only
  split
  · simp
  · split
    · simp
    · simp [Option.isSome_map, parseTodoLines_isSome]

theorem itemIdx_cons (e : Entry) (rest : List Entry) (n : Nat) :
    itemIdx (e :: rest) n =
      if isMarkerE e then itemIdx rest (n + 1) else (e.2, n) :: itemIdx rest (n + 1) := rfl

theorem revMarkerLowers_cons (e : Entry) (rest : List Entry) (p : List Text) :
    revMarkerLowers (e :: rest) p =
      if isMarkerE e then revMarkerLowers rest (pyLower (pyStrip (e.2.drop 1)) :: p)
      else revMarkerLowers rest p := rfl

theorem lastMarkerName_cons (e : Entry) (rest : List Entry) (d : Text) :
    lastMarkerName (e :: rest) d =
      if isMarkerE e then lastMarkerName rest (pyStrip (e.2.drop 1))
      else lastMarkerName rest d := rfl

theorem startsWithChar_cons {c : Char} {t : Text} (h : startsWithChar c t = true) :
    t = c :: t.drop 1 := by
  cases t with
  | nil => cases h
  | cons a r => simp only [startsWithChar, beq_iff_eq] at h; simp [h]

theorem mapGet?_none_append {m : List (Text × Nat)} {k : Text} {v : Nat}
    (h : mapGet? m k = none) : mapSet m k v = m ++ [(k, v)] := by
  induction m with
  | nil => simp [mapSet]
  | cons p rest ih =>
    unfold mapGet? at h
    unfold mapSet
    split at h
    · cases h
    · rename_i hne
      rw [if_neg hne]
      simp [ih h]

theorem mapGet?_append_left {m₁ m₂ : List (Text × Nat)} {k : Text}
    (h : mapGet? m₁ k = none) : mapGet? (m₁ ++ m₂) k = mapGet? m₂ k := by
  induction m₁ with
  | nil => simp
  | cons p rest ih =>
    obtain ⟨k', v⟩ := p
    rw [List.cons_append]
    rw [show mapGet? ((k', v) :: (rest ++ m₂)) k =
      (if k' == k then some v else mapGet? (rest ++ m₂) k) from rfl]
    rw [show mapGet? ((k', v) :: rest) k =
      (if k' == k then some v else mapGet? rest k) from rfl] at h
    split at h
    · cases h
    · rename_i hne
      rw [if_neg hne]
      exact ih h

theorem contains_eq_mem {l : List Text} {x : Text} : l.contains x = true ↔ x ∈ l := by
  simp [List.contains]

theorem contains_eq_false {l : List Text} {x : Text} : l.contains x = false ↔ x ∉ l := by
  rw [Bool.eq_false_iff]
  exact not_congr contains_eq_mem

/-- Lemma: `mergePass1` on a well-formed ledger appends the ledger verbatim and
builds the expected index, processed set and current category. -/
theorem mergePass1_spec : ∀ (L : List Entry) (st : MergeState),
    (∀ e ∈ L, isMarkerE e = true → e.1 = false ∧ pyStrip (e.2.drop 1) = e.2.drop 1) →
    (markerLowersOf L).Nodup →
    (∀ x ∈ markerLowersOf L, st.processed.contains x = false) →
    (itemTextsOf L).Nodup →
    (∀ t ∈ itemTextsOf L, mapGet? st.todoMap t = none) →
    mergePass1 L st =
      ⟨st.result ++ L, st.todoMap ++ itemIdx L st.result.length,
        revMarkerLowers L st.processed, lastMarkerName L st.current⟩ := by
  intro L
  induction L with
  | nil => intro st _ _ _ _ _; simp [mergePass1, itemIdx, revMarkerLowers, lastMarkerName]
  | cons e rest ih =>
    intro st hmk hnd hproc hitnd hitmap
    obtain ⟨checked, text⟩ := e
    by_cases hm : isMarkerE (checked, text) = true
    · have hm' : startsWithChar '@' text = true := hm
      obtain ⟨hck1, hck2⟩ := hmk _ (List.mem_cons_self _ _) hm
      have hlow : markerLowersOf ((checked, text) :: rest) =
          pyLower (text.drop 1) :: markerLowersOf rest := by
        unfold markerLowersOf; simp [List.filter_cons, hm]
      have hmem : pyLower (text.drop 1) ∈ markerLowersOf ((checked, text) :: rest) := by
        rw [hlow]; exact List.mem_cons_self _ _
      have hcontains : st.processed.contains (pyLower (pyStrip (text.drop 1))) = false := by
        dsimp only at hck2
        rw [hck2]; exact hproc _ hmem
      have hrestmk : ∀ e ∈ rest, isMarkerE e = true →
          e.1 = false ∧ pyStrip (e.2.drop 1) = e.2.drop 1 :=
        fun e he => hmk e (List.mem_cons_of_mem _ he)
      have hndrest : (markerLowersOf rest).Nodup := by
        rw [hlow] at hnd; exact hnd.of_cons
      have hprocrest : ∀ x ∈ markerLowersOf rest,
          (pyLower (pyStrip (text.drop 1)) :: st.processed).contains x = false := by
        intro x hx
        rw [contains_eq_false]
        intro hmem'
        rcases List.mem_cons.mp hmem' with heq | htl
        · rw [hlow] at hnd
          dsimp only at hck2
          rw [hck2] at heq
          exact (List.nodup_cons.mp hnd).1 (heq ▸ hx)
        · have := hproc x (by rw [hlow]; exact List.mem_cons_of_mem _ hx)
          rw [contains_eq_false] at this
          exact this htl
      have hitlow : itemTextsOf ((checked, text) :: rest) = itemTextsOf rest := by
        unfold itemTextsOf; simp [List.filter_cons, hm]
      rw [hitlow] at hitnd hitmap
      have hstep : mergePass1 ((checked, text) :: rest) st =
          mergePass1 rest { st with
            result := st.result ++ [(false, '@' :: pyStrip (text.drop 1))],
            processed := pyLower (pyStrip (text.drop 1)) :: st.processed,
            current := pyStrip (text.drop 1) } := by
        conv_lhs => rw [mergePass1]
        rw [if_pos hm']
        dsimp only
        rw [if_neg (by rw [hcontains]; simp)]
      rw [hstep]
      rw [ih { result := st.result ++ [(false, '@' :: pyStrip (text.drop 1))],
               todoMap := st.todoMap,
               processed := pyLower (pyStrip (text.drop 1)) :: st.processed,
               current := pyStrip (text.drop 1) } hrestmk hndrest hprocrest hitnd hitmap]
      have htext : (false, '@' :: pyStrip (text.drop 1)) = (checked, text) := by
        rw [hck1.symm] at *
        dsimp only at hck2
        rw [hck2, ← startsWithChar_cons hm']
      simp only [MergeState.mk.injEq]
      refine ⟨?_, ?_, ?_, ?_⟩
      · rw [htext]; simp
      · rw [itemIdx_cons, if_pos hm]; simp
      · rw [revMarkerLowers_cons, if_pos hm]
      · rw [lastMarkerName_cons, if_pos hm]
    · have hm' : startsWithChar '@' text = false := by
        simpa [isMarkerE] using hm
      have hmf : isMarkerE (checked, text) = false := hm'
      have hitlow : itemTextsOf ((checked, text) :: rest) =
          text :: itemTextsOf rest := by
        unfold itemTextsOf; simp [List.filter_cons, isMarkerE, hm']
      have hmklow : markerLowersOf ((checked, text) :: rest) = markerLowersOf rest := by
        unfold markerLowersOf; simp [List.filter_cons, isMarkerE, hm']
      have htmem : text ∈ itemTextsOf ((checked, text) :: rest) := by
        rw [hitlow]; exact List.mem_cons_self _ _
      have hmapnone : mapGet? st.todoMap text = none := hitmap _ htmem
      rw [hitlow] at hitnd hitmap
      rw [hmklow] at hnd hproc
      have hitndrest : (itemTextsOf rest).Nodup := hitnd.of_cons
      have hitmaprest : ∀ t ∈ itemTextsOf rest,
          mapGet? (mapSet st.todoMap text st.result.length) t = none := by
        intro t ht
        rw [mapGet?_none_append hmapnone]
        have htne : t ≠ text := by
          intro hcontra
          exact (List.nodup_cons.mp hitnd).1 (hcontra ▸ ht)
        have hnone := hitmap t (List.mem_cons_of_mem _ ht)
        rw [mapGet?_append_left hnone]
        simp only [mapGet?]
        rw [if_neg (by simp only [beq_iff_eq]; exact fun hc => htne hc.symm)]
      have hstep : mergePass1 ((checked, text) :: rest) st =
          mergePass1 rest { st with
            todoMap := mapSet st.todoMap text st.result.length,
            result := st.result ++ [(checked, text)] } := by
        conv_lhs => rw [mergePass1]
        rw [if_neg (by rw [hm']; simp)]
      rw [hstep]
      rw [ih { st with todoMap := mapSet st.todoMap text st.result.length,
                       result := st.result ++ [(checked, text)] }
        (fun e he => hmk e (List.mem_cons_of_mem _ he)) hnd hproc hitndrest hitmaprest]
      simp only [MergeState.mk.injEq]
      refine ⟨?_, ?_, ?_, ?_⟩
      · simp
      · rw [mapGet?_none_append hmapnone, itemIdx_cons, if_neg (by rw [hmf]; simp)]
        simp
      · rw [revMarkerLowers_cons, if_neg (by rw [hmf]; simp)]
      · rw [lastMarkerName_cons, if_neg (by rw [hmf]; simp)]

theorem findIdx?_isSome_of_mem {α : Type} {p : α → Bool} {l : List α} {x : α}
    (hx : x ∈ l) (hp : p x = true) : (l.findIdx? p).isSome := by
  induction l with
  | nil => cases hx
  | cons a rest ih =>
    rw [List.findIdx?_cons]
    by_cases ha : p a = true
    · simp [ha]
    · have haf : p a = false := by simpa using ha
      rcases List.mem_cons.mp hx with rfl | htl
      · exact absurd hp ha
      · rw [haf]
        simp [Option.isSome_map, ih htl]

theorem mem_markerLowersOf {L : List Entry} {e : Entry} (he : e ∈ L)
    (hm : isMarkerE e = true) : pyLower (e.2.drop 1) ∈ markerLowersOf L := by
  unfold markerLowersOf
  exact List.mem_map_of_mem _ (List.mem_filter.mpr ⟨he, hm⟩)

theorem mem_itemTextsOf {L : List Entry} {e : Entry} (he : e ∈ L)
    (hm : isMarkerE e = false) : e.2 ∈ itemTextsOf L := by
  unfold itemTextsOf
  exact List.mem_map_of_mem _ (List.mem_filter.mpr ⟨he, by rw [hm]; rfl⟩)

theorem mem_revMarkerLowers : ∀ (L : List Entry) (p : List Text) (x : Text),
    (∀ e ∈ L, isMarkerE e = true → pyStrip (e.2.drop 1) = e.2.drop 1) →
    (x ∈ revMarkerLowers L p ↔ x ∈ p ∨ x ∈ markerLowersOf L) := by
  intro L
  induction L with
  | nil => intro p x _; simp [revMarkerLowers, markerLowersOf]
  | cons e rest ih =>
    intro p x htrim
    by_cases hm : isMarkerE e = true
    · rw [revMarkerLowers_cons, if_pos hm]
      rw [ih _ x (fun e' he' => htrim e' (List.mem_cons_of_mem _ he'))]
      have hml : markerLowersOf (e :: rest) = pyLower (e.2.drop 1) :: markerLowersOf rest := by
        unfold markerLowersOf; simp [List.filter_cons, hm]
      rw [hml, htrim e (List.mem_cons_self _ _) hm]
      simp [List.mem_cons]
      tauto
    · have hmf : isMarkerE e = false := by simpa using hm
      rw [revMarkerLowers_cons, if_neg (by rw [hmf]; simp)]
      rw [ih _ x (fun e' he' => htrim e' (List.mem_cons_of_mem _ he'))]
      have hml : markerLowersOf (e :: rest) = markerLowersOf rest := by
        unfold markerLowersOf; simp [List.filter_cons, hmf]
      rw [hml]

theorem lastMarkerName_no_marker : ∀ (L : List Entry) (d : Text),
    (L.any (fun e => isMarkerE e)) = false → lastMarkerName L d = d := by
  intro L
  induction L with
  | nil => intro d _; rfl
  | cons e rest ih =>
    intro d hany
    rw [List.any_cons] at hany
    have he : isMarkerE e = false := by
      cases h : isMarkerE e
      · rfl
      · rw [h] at hany; simp at hany
    have hrest : rest.any (fun e => isMarkerE e) = false := by
      cases h : rest.any (fun e => isMarkerE e)
      · rfl
      · rw [h] at hany; simp at hany
    rw [lastMarkerName_cons, if_neg (by rw [he]; simp)]
    exact ih d hrest

theorem lastMarkerName_of_any : ∀ (L : List Entry),
    (L.any (fun e => isMarkerE e)) = true →
    ∃ e ∈ L, isMarkerE e = true ∧ ∀ d, lastMarkerName L d = pyStrip (e.2.drop 1) := by
  intro L
  induction L with
  | nil => intro h; cases h
  | cons e rest ih =>
    intro hany
    cases hrest : rest.any (fun e => isMarkerE e) with
    | true =>
      obtain ⟨e', he', hm', hl⟩ := ih hrest
      refine ⟨e', List.mem_cons_of_mem _ he', hm', fun d => ?_⟩
      rw [lastMarkerName_cons]
      by_cases hm : isMarkerE e = true
      · rw [if_pos hm]; exact hl _
      · rw [if_neg hm]; exact hl _
    | false =>
      rw [List.any_cons, hrest] at hany
      have hm : isMarkerE e = true := by simpa using hany
      refine ⟨e, List.mem_cons_self _ _, hm, fun d => ?_⟩
      rw [lastMarkerName_cons, if_pos hm]
      exact lastMarkerName_no_marker rest _ hrest

theorem itemIdx_lookup : ∀ (L : List Entry) (n : Nat) (e : Entry),
    e ∈ L → isMarkerE e = false → (itemTextsOf L).Nodup →
    ∃ j, mapGet? (itemIdx L n) e.2 = some (n + j) ∧ L.get? j = some e := by
  intro L
  induction L with
  | nil => intro n e he; cases he
  | cons a rest ih =>
    intro n e he hme hnd
    by_cases hma : isMarkerE a = true
    · have hitl : itemTextsOf (a :: rest) = itemTextsOf rest := by
        unfold itemTextsOf; simp [List.filter_cons, hma]
      rw [hitl] at hnd
      have hea : e ≠ a := fun hc => by rw [hc] at hme; rw [hma] at hme; cases hme
      have he' : e ∈ rest := by
        rcases List.mem_cons.mp he with rfl | h
        · exact absurd rfl hea
        · exact h
      obtain ⟨j, hj1, hj2⟩ := ih (n + 1) e he' hme hnd
      refine ⟨j + 1, ?_, ?_⟩
      · rw [itemIdx_cons, if_pos hma, hj1]
        congr 1
        omega
      · simpa using hj2
    · have hmaf : isMarkerE a = false := by simpa using hma
      have hitl : itemTextsOf (a :: rest) = a.2 :: itemTextsOf rest := by
        unfold itemTextsOf; simp [List.filter_cons, hmaf]
      rw [hitl] at hnd
      rcases List.mem_cons.mp he with rfl | he'
      · refine ⟨0, ?_, ?_⟩
        · rw [itemIdx_cons, if_neg (by rw [hmaf]; simp)]
          simp [mapGet?]
        · simp
      · have hne : a.2 ≠ e.2 := by
          intro hc
          have : e.2 ∈ itemTextsOf rest := mem_itemTextsOf he' hme
          exact (List.nodup_cons.mp hnd).1 (hc ▸ this)
        obtain ⟨j, hj1, hj2⟩ := ih (n + 1) e he' hme hnd.of_cons
        refine ⟨j + 1, ?_, ?_⟩
        · rw [itemIdx_cons, if_neg (by rw [hmaf]; simp)]
          simp only [mapGet?]
          rw [if_neg (by simp [hne]), hj1]
          congr 1
          omega
        · simpa using hj2

/-- Second-pass fixpoint: when every incoming category is already processed
(and locatable in `result`) and every incoming item text is indexed at a
matching entry whose checked state dominates, the second pass leaves
`result` untouched. -/
theorem mergePass2_fix : ∀ (N : List Entry) (st : MergeState),
    st.processed.contains (pyLower st.current) = true →
    (findCategoryIdx st.result st.current).isSome = true →
    (∀ e ∈ N, isMarkerE e = true →
      st.processed.contains (pyLower (pyStrip (e.2.drop 1))) = true ∧
      (findCategoryIdx st.result (pyStrip (e.2.drop 1))).isSome = true) →
    (∀ e ∈ N, isMarkerE e = false →
      ∃ idx c, mapGet? st.todoMap e.2 = some idx ∧
        st.result.get? idx = some (c, e.2) ∧ (e.1 = true → c = true)) →
    (mergePass2 N st).result = st.result := by
  intro N
  induction N with
  | nil => intro st _ _ _ _; rfl
  | cons e rest ih =>
    intro st hcur1 hcur2 hmk hit
    obtain ⟨checked, text⟩ := e
    by_cases hm : isMarkerE (checked, text) = true
    · have hm' : startsWithChar '@' text = true := hm
      obtain ⟨hc1, hc2⟩ := hmk _ (List.mem_cons_self _ _) hm
      have hstep : mergePass2 ((checked, text) :: rest) st =
          mergePass2 rest { st with current := pyStrip (text.drop 1) } := by
        conv_lhs => rw [mergePass2]
        rw [if_pos hm']
        dsimp only
        rw [if_pos hc1]
      rw [hstep]
      exact ih _ hc1 hc2 (fun e' he' => hmk e' (List.mem_cons_of_mem _ he'))
        (fun e' he' => hit e' (List.mem_cons_of_mem _ he'))
    · have hm' : startsWithChar '@' text = false := by simpa [isMarkerE] using hm
      have hmf : isMarkerE (checked, text) = false := hm'
      have hguard : (st.current == txt "General" &&
          !(st.processed.contains (txt "general"))) = false := by
        by_cases hg : st.current = txt "General"
        · have : pyLower st.current = txt "general" := by rw [hg]; decide
          rw [← this]
          rw [hcur1]
          simp
        · rw [show (st.current == txt "General") = false by simp [hg]]
          simp
      obtain ⟨idx, c, hlook, hentry, hdom⟩ := hit _ (List.mem_cons_self _ _) hmf
      have hnoupd : (checked && !c) = false := by
        cases hchk : checked with
        | false => simp
        | true =>
          have hc : c = true := hdom hchk
          simp [hc]
      obtain ⟨ci, hci⟩ := Option.isSome_iff_exists.mp hcur2
      have hstep : mergePass2 ((checked, text) :: rest) st = mergePass2 rest st := by
        conv_lhs => rw [mergePass2]
        rw [if_neg (by rw [hm']; simp)]
        dsimp only
        rw [if_neg (by rw [hguard]; simp)]
        rw [hci]
        dsimp only
        rw [hlook]
        dsimp only
        rw [hentry]
        dsimp only
        rw [if_neg (by rw [hnoupd]; simp)]
      rw [hstep]
      exact ih _ hcur1 hcur2 (fun e' he' => hmk e' (List.mem_cons_of_mem _ he'))
        (fun e' he' => hit e' (List.mem_cons_of_mem _ he'))

/-- Idempotence of `merge_todos` on well-formed ledgers: re-merging a
ledger's own contents changes nothing. -/
theorem merge_todos_self (L : List Entry)
    (hany : L.any (fun e => isMarkerE e) = true)
    (htrim : ∀ e ∈ L, isMarkerE e = true → e.1 = false ∧ pyStrip (e.2.drop 1) = e.2.drop 1)
    (hnd : (markerLowersOf L).Nodup)
    (hitnd : (itemTextsOf L).Nodup) :
    merge_todos L L = L := by
  have hpass1 := mergePass1_spec L ⟨[], [], [], txt "General"⟩ htrim hnd
    (fun x _ => rfl) hitnd (fun t _ => rfl)
  have hany' : L.any (fun e => startsWithChar '@' e.2) = true := hany
  unfold merge_todos
  rw [hpass1]
  dsimp only
  rw [hany']
  simp only [Bool.not_true, Bool.false_and, Bool.false_eq_true, if_false]
  obtain ⟨e0, he0, hm0, hl0⟩ := lastMarkerName_of_any L hany
  have htrim0 := (htrim e0 he0 hm0).2
  have hcur1 : (revMarkerLowers L []).contains
      (pyLower (lastMarkerName L (txt "General"))) = true := by
    rw [contains_eq_mem, mem_revMarkerLowers L [] _ (fun e he hm => (htrim e he hm).2)]
    right
    rw [hl0 (txt "General"), htrim0]
    exact mem_markerLowersOf he0 hm0
  have hcur2 : (findCategoryIdx L (lastMarkerName L (txt "General"))).isSome = true := by
    unfold findCategoryIdx
    refine findIdx?_isSome_of_mem he0 ?_
    rw [hl0 (txt "General")]
    simp [isMarkerE] at hm0
    simp [hm0]
  have hmkh : ∀ e ∈ L, isMarkerE e = true →
      (revMarkerLowers L []).contains (pyLower (pyStrip (e.2.drop 1))) = true ∧
      (findCategoryIdx L (pyStrip (e.2.drop 1))).isSome = true := by
    intro e he hm
    constructor
    · rw [contains_eq_mem, mem_revMarkerLowers L [] _ (fun e' he' hm' => (htrim e' he' hm').2)]
      right
      rw [(htrim e he hm).2]
      exact mem_markerLowersOf he hm
    · unfold findCategoryIdx
      refine findIdx?_isSome_of_mem he ?_
      simp [isMarkerE] at hm
      simp [hm]
  have hith : ∀ e ∈ L, isMarkerE e = false →
      ∃ idx c, mapGet? (itemIdx L 0) e.2 = some idx ∧
        L.get? idx = some (c, e.2) ∧ (e.1 = true → c = true) := by
    intro e he hm
    obtain ⟨j, hj1, hj2⟩ := itemIdx_lookup L 0 e he hm hitnd
    refine ⟨j, e.1, ?_, ?_, fun h => h⟩
    · simpa using hj1
    · rw [hj2]
  have hfix := mergePass2_fix L
    ⟨L, itemIdx L 0, revMarkerLowers L [], lastMarkerName L (txt "General")⟩
    hcur1 hcur2 hmkh hith
  simpa using hfix

/-- Symbolic evaluation of `merge_todos` on a base holding one category `a`
with one item `t`, merged with an incoming category `b` carrying an item:
the incoming item is deduplicated against `t` by text alone (first
conjunct), while a fresh text `u` is appended under `b` (second conjunct). -/
theorem merge_todos_two_categories (a b t u : Text)
    (ha : pyStrip a = a) (hb : pyStrip b = b)
    (hab : pyLower a ≠ pyLower b)
    (ht : startsWithChar '@' t = false)
    (hu : startsWithChar '@' u = false) (htu : t ≠ u) :
    merge_todos [(false, '@' :: a), (false, t)] [(false, '@' :: b), (false, t)] =
      [(false, '@' :: a), (false, t), (false, '@' :: b)] ∧
    merge_todos [(false, '@' :: a), (false, t)] [(false, '@' :: b), (false, u)] =
      [(false, '@' :: a), (false, t), (false, '@' :: b), (false, u)] := by
  have hdropa : (('@' :: a : Text).drop 1) = a := rfl
  have hdropb : (('@' :: b : Text).drop 1) = b := rfl
  have hp1 : mergePass1 [(false, '@' :: a), (false, t)] ⟨[], [], [], txt "General"⟩ =
      ⟨[(false, '@' :: a), (false, t)], [(t, 1)], [pyLower a], a⟩ := by
    conv_lhs => rw [mergePass1]
    rw [if_pos (show startsWithChar '@' ('@' :: a) = true from rfl)]
    dsimp only
    rw [hdropa, ha]
    rw [if_neg (by simp [List.contains])]
    conv_lhs => rw [mergePass1]
    rw [if_neg (by rw [ht]; simp)]
    conv_lhs => rw [mergePass1]
    rfl
  have hanyN : ∀ (z : Text), ([((false : Bool), '@' :: b), (false, z)].any
      (fun e => startsWithChar '@' e.2)) = true := by
    intro z
    simp [startsWithChar]
  have hcont : (([pyLower a] : List Text).contains (pyLower b)) = false := by
    rw [contains_eq_false]
    intro hmem
    rcases List.mem_cons.mp hmem with heq | h
    · exact hab heq.symm
    · cases h
  have hmarker : ∀ (z : Text), mergePass2 [(false, '@' :: b), (false, z)]
        ⟨[(false, '@' :: a), (false, t)], [(t, 1)], [pyLower a], a⟩ =
      mergePass2 [(false, z)]
        ⟨[(false, '@' :: a), (false, t), (false, '@' :: b)], [(t, 1)],
          [pyLower b, pyLower a], b⟩ := by
    intro z
    conv_lhs => rw [mergePass2]
    rw [if_pos (show startsWithChar '@' ('@' :: b) = true from rfl)]
    dsimp only
    rw [hdropb, hb]
    rw [if_neg (by rw [hcont]; simp)]
    rfl
  have hguard : ((b == txt "General") &&
      !(([pyLower b, pyLower a] : List Text).contains (txt "general"))) = false := by
    by_cases hg : b = txt "General"
    · have hlg : pyLower b = txt "general" := by rw [hg]; decide
      rw [show (b == txt "General") = true by simp [hg]]
      rw [show (([pyLower b, pyLower a] : List Text).contains (txt "general")) = true by
        rw [contains_eq_mem, hlg]; exact List.mem_cons_self _ _]
      simp
    · rw [show (b == txt "General") = false by simp [hg]]
      simp
  have hfind : findCategoryIdx
      [(false, '@' :: a), (false, t), (false, '@' :: b)] b = some 2 := by
    unfold findCategoryIdx
    rw [List.findIdx?_cons]
    rw [show (startsWithChar '@' (((false : Bool), '@' :: a)).2 &&
        (pyLower (pyStrip ((((false : Bool), '@' :: a)).2.drop 1)) == pyLower b)) = false by
      dsimp only
      rw [hdropa, ha]
      simp [startsWithChar, hab]]
    simp only [Bool.false_eq_true, if_false]
    rw [List.findIdx?_cons]
    rw [show (startsWithChar '@' (((false : Bool), t)).2 &&
        (pyLower (pyStrip ((((false : Bool), t)).2.drop 1)) == pyLower b)) = false by
      dsimp only
      rw [ht]
      simp]
    simp only [Bool.false_eq_true, if_false]
    rw [List.findIdx?_cons]
    rw [show (startsWithChar '@' (((false : Bool), '@' :: b)).2 &&
        (pyLower (pyStrip ((((false : Bool), '@' :: b)).2.drop 1)) == pyLower b)) = true by
      dsimp only
      rw [hdropb, hb]
      simp [startsWithChar]]
    rfl
  have hnext : findNextMarkerIdx
      [(false, '@' :: a), (false, t), (false, '@' :: b)] 3 = 3 := by
    unfold findNextMarkerIdx
    rfl
  constructor
  · unfold merge_todos
    rw [hp1]
    dsimp only
    rw [hanyN t]
    simp only [Bool.not_true, Bool.false_and, Bool.false_eq_true, if_false]
    rw [hmarker t]
    conv_lhs => rw [mergePass2]
    rw [if_neg (by rw [ht]; simp)]
    dsimp only
    rw [if_neg (by rw [hguard]; simp)]
    rw [hfind]
    dsimp only
    rw [show mapGet? [(t, 1)] t = some 1 by simp [mapGet?]]
    dsimp only
    rw [show ([((false : Bool), '@' :: a), (false, t), (false, '@' :: b)].get? 1) =
      some (false, t) from rfl]
    dsimp only
    rw [if_neg (by simp)]
    conv_lhs => rw [mergePass2]
  · unfold merge_todos
    rw [hp1]
    dsimp only
    rw [hanyN u]
    simp only [Bool.not_true, Bool.false_and, Bool.false_eq_true, if_false]
    rw [hmarker u]
    conv_lhs => rw [mergePass2]
    rw [if_neg (by rw [hu]; simp)]
    dsimp only
    rw [if_neg (by rw [hguard]; simp)]
    rw [hfind]
    dsimp only
    rw [show mapGet? [(t, 1)] u = none by
      simp only [mapGet?]
      rw [if_neg (by simp [htu])]]
    dsimp only
    rw [hnext]
    conv_lhs => rw [mergePass2]
    rfl

/-! ### Text lemmas for the serializer/parser round trip -/

theorem containsSub_cons (pat : Text) (c : Char) (rest : Text) :
    containsSub pat (c :: rest) =
      (pat.isPrefixOf (c :: rest) || containsSub pat rest) := rfl

theorem beforeFirst_cons (pat : Text) (c : Char) (rest : Text) :
    beforeFirst pat (c :: rest) =
      if pat.isPrefixOf (c :: rest) then [] else c :: beforeFirst pat rest := rfl

theorem pySplitChar_cons (ch c : Char) (rest : Text) :
    pySplitChar ch (c :: rest) =
      if c == ch then [] :: pySplitChar ch rest
      else
        match pySplitChar ch rest with
        | [] => [[c]]
        | t :: ts => (c :: t) :: ts := rfl

theorem captureUntil_cons (stop : Text) (c : Char) (rest : Text) :
    captureUntil stop (c :: rest) =
      if stop.isPrefixOf (c :: rest) then []
      else if c == '\n' && rest == [] then []
      else c :: captureUntil stop rest := rfl

theorem containsSub_nil_of_ne {pat : Text} (h : pat ≠ []) :
    containsSub pat [] = false := by
  unfold containsSub
  cases pat with
  | nil => exact absurd rfl h
  | cons a r => simp [List.isPrefixOf]

theorem containsSub_of_isPrefixOf {pat s : Text} (h : pat.isPrefixOf s = true) :
    containsSub pat s = true := by
  cases s with
  | nil => exact h
  | cons c rest => rw [containsSub_cons, h]; rfl

theorem isPrefixOf_refl (xs : Text) : xs.isPrefixOf xs = true :=
  List.isPrefixOf_iff_prefix.mpr (List.prefix_refl xs)

theorem isPrefixOf_append_self (xs ys : Text) : xs.isPrefixOf (xs ++ ys) = true :=
  List.isPrefixOf_iff_prefix.mpr (List.prefix_append xs ys)

theorem isPrefixOf_cons_of_ne_head {pp s : Text} {c x : Char} (h : x ≠ c) :
    (c :: pp : Text).isPrefixOf (x :: s) = false := by
  simp [List.isPrefixOf]
  intro hc
  exact absurd hc.symm h

/-- A needle starting with a character absent from the haystack never
occurs. -/
theorem containsSub_false_of_head_not_mem {pat s : Text} {c : Char}
    (hp : pat.head? = some c) (hc : c ∉ s) : containsSub pat s = false := by
  induction s with
  | nil =>
    apply containsSub_nil_of_ne
    cases pat with
    | nil => cases hp
    | cons a r => simp
  | cons a rest ih =>
    rw [containsSub_cons]
    have hne : a ≠ c := fun h => hc (h ▸ List.mem_cons_self a rest)
    cases pat with
    | nil => cases hp
    | cons p pp =>
      have : p = c := by simpa using hp
      subst this
      rw [isPrefixOf_cons_of_ne_head hne]
      simp only [Bool.false_or]
      exact ih (fun hm => hc (List.mem_cons_of_mem _ hm))

/-- A needle starting with `c` does not occur in `xs ++ ys` when `c` is
absent from `xs` and the needle does not occur in `ys`. -/
theorem containsSub_append_of_not_mem {pat xs ys : Text} {c : Char}
    (hp : pat.head? = some c) (hc : c ∉ xs) (hy : containsSub pat ys = false) :
    containsSub pat (xs ++ ys) = false := by
  induction xs with
  | nil => simpa using hy
  | cons a rest ih =>
    rw [List.cons_append, containsSub_cons]
    have hne : a ≠ c := fun h => hc (h ▸ List.mem_cons_self a rest)
    cases pat with
    | nil => cases hp
    | cons p pp =>
      have : p = c := by simpa using hp
      subst this
      rw [isPrefixOf_cons_of_ne_head hne]
      simp only [Bool.false_or]
      exact ih (fun hm => hc (List.mem_cons_of_mem _ hm))

/-- Reduce a containment over `xs ++ ys` to prefix checks at the suffixes of
`xs` that start with the needle's first character. -/
theorem containsSub_append_false_of_suffix {pat xs ys : Text} {c : Char}
    (hp : pat.head? = some c)
    (h1 : ∀ w, w <:+ xs → w.head? = some c → pat.isPrefixOf (w ++ ys) = false)
    (hy : containsSub pat ys = false) :
    containsSub pat (xs ++ ys) = false := by
  induction xs with
  | nil => simpa using hy
  | cons a rest ih =>
    rw [List.cons_append, containsSub_cons]
    cases pat with
    | nil => cases hp
    | cons p pp =>
      have hpc : p = c := by simpa using hp
      subst hpc
      have hpre : (p :: pp : Text).isPrefixOf (a :: (rest ++ ys)) = false := by
        by_cases hac : a = p
        · subst hac
          have := h1 (a :: rest) (List.suffix_refl _) rfl
          simpa using this
        · exact isPrefixOf_cons_of_ne_head (fun h => hac h)
      rw [hpre]
      simp only [Bool.false_or]
      exact ih (fun w hw => h1 w (hw.trans (List.suffix_cons a rest)))

theorem beforeFirst_append_self {pat xs : Text} {c : Char}
    (hp : pat.head? = some c) (hc : c ∉ xs) :
    beforeFirst pat (xs ++ pat) = xs := by
  induction xs with
  | nil =>
    rw [List.nil_append]
    cases hpat : pat with
    | nil => rfl
    | cons p pp =>
      rw [beforeFirst_cons, if_pos (isPrefixOf_refl _)]
  | cons a rest ih =>
    rw [List.cons_append, beforeFirst_cons]
    have hne : a ≠ c := fun h => hc (h ▸ List.mem_cons_self a rest)
    have hpre : pat.isPrefixOf (a :: (rest ++ pat)) = false := by
      cases pat with
      | nil => cases hp
      | cons p pp =>
        have : p = c := by simpa using hp
        subst this
        exact isPrefixOf_cons_of_ne_head hne
    rw [if_neg (by rw [hpre]; simp)]
    rw [ih (fun hm => hc (List.mem_cons_of_mem _ hm))]

theorem pySplitChar_no_sep {ch : Char} {s : Text} (h : ch ∉ s) :
    pySplitChar ch s = [s] := by
  induction s with
  | nil => rfl
  | cons c rest ih =>
    rw [pySplitChar_cons]
    have hne : c ≠ ch := fun hc => h (hc ▸ List.mem_cons_self c rest)
    rw [if_neg (by simp [hne])]
    rw [ih (fun hm => h (List.mem_cons_of_mem _ hm))]

theorem pySplitChar_append_sep {ch : Char} {xs ys : Text} (h : ch ∉ xs) :
    pySplitChar ch (xs ++ ch :: ys) = xs :: pySplitChar ch ys := by
  induction xs with
  | nil =>
    rw [List.nil_append, pySplitChar_cons]
    rw [if_pos (by simp)]
  | cons a rest ih =>
    rw [List.cons_append, pySplitChar_cons]
    have hne : a ≠ ch := fun hc => h (hc ▸ List.mem_cons_self a rest)
    rw [if_neg (by simp [hne])]
    rw [ih (fun hm => h (List.mem_cons_of_mem _ hm))]

/-- Splitting a newline-join recovers the lines when no line holds a
newline. -/
theorem pySplitChar_pyJoin {lines : List Text} (hne : lines ≠ [])
    (h : ∀ l ∈ lines, '\n' ∉ l) :
    pySplitChar '\n' (pyJoin ['\n'] lines) = lines := by
  induction lines with
  | nil => exact absurd rfl hne
  | cons l rest ih =>
    cases hr : rest with
    | nil =>
      subst hr
      show pySplitChar '\n' (pyJoin ['\n'] [l]) = [l]
      rw [show pyJoin ['\n'] [l] = l from rfl]
      exact pySplitChar_no_sep (h l (List.mem_cons_self _ _))
    | cons r rs =>
      subst hr
      rw [show pyJoin ['\n'] (l :: r :: rs) = (l ++ ['\n']) ++ pyJoin ['\n'] (r :: rs) from rfl,
        List.append_assoc, List.singleton_append]
      rw [pySplitChar_append_sep (h l (List.mem_cons_self _ _))]
      rw [ih (by simp) (fun l' hl' => h l' (List.mem_cons_of_mem _ hl'))]

theorem captureUntil_all {stop s : Text} (hnc : containsSub stop s = false)
    (hlast : s.getLast? ≠ some '\n') : captureUntil stop s = s := by
  induction s with
  | nil => rfl
  | cons c rest ih =>
    rw [containsSub_cons] at hnc
    have h1 : stop.isPrefixOf (c :: rest) = false := by
      cases hx : stop.isPrefixOf (c :: rest)
      · rfl
      · rw [hx] at hnc; simp at hnc
    have h2 : containsSub stop rest = false := by
      cases hx : containsSub stop rest
      · rfl
      · rw [hx] at hnc; simp at hnc
    rw [captureUntil_cons, if_neg (by rw [h1]; simp)]
    cases hr : rest with
    | nil =>
      subst hr
      have hcne : c ≠ '\n' := fun hc => hlast (by simp [hc])
      rw [if_neg (by simp [hcne])]
      rfl
    | cons r rs =>
      subst hr
      rw [if_neg (by simp)]
      have hlast2 : (r :: rs : Text).getLast? ≠ some '\n' := by
        rwa [List.getLast?_cons_cons] at hlast
      rw [ih h2 hlast2]

theorem dropWhile_eq_self_of_head {p : Char → Bool} {s : Text}
    (h : ∀ c, s.head? = some c → p c = false) : s.dropWhile p = s := by
  cases s with
  | nil => rfl
  | cons c rest => exact List.dropWhile_cons_of_neg (by rw [h c rfl]; simp)

theorem pyStrip_eq_self_of_ends {s : Text}
    (h1 : ∀ c, s.head? = some c → isPySpace c = false)
    (h2 : ∀ c, s.getLast? = some c → isPySpace c = false) : pyStrip s = s := by
  unfold pyStrip
  rw [dropWhile_eq_self_of_head h1]
  rw [dropWhile_eq_self_of_head (fun c hc => h2 c (by rwa [List.head?_reverse] at hc))]
  exact List.reverse_reverse s

theorem pyStrip_length_le (s : Text) : (pyStrip s).length ≤ s.length := by
  unfold pyStrip
  rw [List.length_reverse]
  exact le_trans (length_dropWhile_le _ _)
    (by rw [List.length_reverse]; exact length_dropWhile_le _ _)

/-- A fixed point of `pyStrip` has no whitespace at either end. -/
theorem pyStrip_ends {s : Text} (h : pyStrip s = s) :
    (∀ c, s.head? = some c → isPySpace c = false) ∧
    (∀ c, s.getLast? = some c → isPySpace c = false) := by
  constructor
  · intro c hc
    cases hsp : isPySpace c
    · rfl
    exfalso
    cases s with
    | nil => cases hc
    | cons a rest =>
      have ha : a = c := by simpa using hc
      subst ha
      have hlen : (pyStrip (a :: rest)).length ≤ rest.length := by
        unfold pyStrip
        rw [List.dropWhile_cons_of_pos (by rw [hsp])]
        rw [List.length_reverse]
        exact le_trans (length_dropWhile_le _ _)
          (by rw [List.length_reverse]; exact length_dropWhile_le _ _)
      rw [h] at hlen
      simp at hlen
  · intro c hc
    cases hsp : isPySpace c
    · rfl
    exfalso
    cases hd : s.dropWhile isPySpace with
    | nil =>
      have hps : pyStrip s = [] := by unfold pyStrip; rw [hd]; rfl
      rw [h] at hps
      subst hps
      cases hc
    | cons d ds =>
      have hsfx : s.dropWhile isPySpace <:+ s := List.dropWhile_suffix _
      have hlast2 : (d :: ds : Text).getLast? = some c := by
        obtain ⟨u, hu⟩ := hsfx
        rw [hd] at hu
        rw [← hu] at hc
        rwa [List.getLast?_append_of_ne_nil _ (by simp)] at hc
      have hrevhead : (d :: ds : Text).reverse.head? = some c := by
        rwa [List.head?_reverse]
      have hlen : (pyStrip s).length < s.length := by
        unfold pyStrip
        rw [hd, List.length_reverse]
        cases hrv : (d :: ds : Text).reverse with
        | nil => simp at hrv
        | cons b bs =>
          have hb : b = c := by rw [hrv] at hrevhead; simpa using hrevhead
          subst hb
          rw [List.dropWhile_cons_of_pos (by rw [hsp])]
          have hbs : bs.length + 1 = (d :: ds : Text).length := by
            have := congrArg List.length hrv
            simpa [List.length_reverse] using this.symm
          have hdslen : (d :: ds : Text).length ≤ s.length :=
            (hd ▸ List.dropWhile_suffix isPySpace :
              (d :: ds : Text) <:+ s).length_le
          calc (bs.dropWhile isPySpace).length
              ≤ bs.length := length_dropWhile_le _ _
            _ < (d :: ds : Text).length := by omega
            _ ≤ s.length := hdslen
      rw [h] at hlen
      omega

/-! ### Decimal digits of `natText` -/

theorem toDigitsCore_digits : ∀ (fuel n : Nat) (ds : List Char),
    (∀ c ∈ ds, c.isDigit = true) → ∀ c ∈ Nat.toDigitsCore 10 fuel n ds, c.isDigit = true := by
  intro fuel
  induction fuel with
  | zero =>
    intro n ds hds c hc
    rw [Nat.toDigitsCore.eq_def] at hc
    exact hds c hc
  | succ fuel ih =>
    intro n ds hds c hc
    rw [Nat.toDigitsCore.eq_def] at hc
    dsimp only at hc
    have hdig : (Nat.digitChar (n % 10)).isDigit = true := by
      have hlt : n % 10 < 10 := Nat.mod_lt _ (by omega)
      have : n % 10 = 0 ∨ n % 10 = 1 ∨ n % 10 = 2 ∨ n % 10 = 3 ∨ n % 10 = 4 ∨
          n % 10 = 5 ∨ n % 10 = 6 ∨ n % 10 = 7 ∨ n % 10 = 8 ∨ n % 10 = 9 := by omega
      rcases this with h | h | h | h | h | h | h | h | h | h <;> rw [h] <;> decide
    split at hc
    · rcases List.mem_cons.mp hc with rfl | hmem
      · exact hdig
      · exact hds c hmem
    · refine ih (n / 10) _ ?_ c hc
      intro c' hc'
      rcases List.mem_cons.mp hc' with rfl | hmem
      · exact hdig
      · exact hds c' hmem

theorem natText_digits {n : Nat} {c : Char} (hc : c ∈ natText n) : c.isDigit = true := by
  have : natText n = Nat.toDigitsCore 10 (n + 1) n [] := rfl
  rw [this] at hc
  exact toDigitsCore_digits (n + 1) n [] (by intro c h; cases h) c hc

theorem not_mem_natText {c : Char} (hc : c.isDigit = false) (n : Nat) :
    c ∉ natText n := fun hmem => by rw [natText_digits hmem] at hc; cases hc

theorem pyJoin_cons_cons (sep x y : Text) (rest : List Text) :
    pyJoin sep (x :: y :: rest) = x ++ sep ++ pyJoin sep (y :: rest) := rfl

theorem pyJoin_append (sep : Text) : ∀ (xs ys : List Text), xs ≠ [] → ys ≠ [] →
    pyJoin sep (xs ++ ys) = pyJoin sep xs ++ sep ++ pyJoin sep ys := by
  intro xs
  induction xs with
  | nil => intro ys h _; exact absurd rfl h
  | cons x rest ih =>
    intro ys _ hys
    cases hr : rest with
    | nil =>
      subst hr
      cases ys with
      | nil => exact absurd rfl hys
      | cons y ys' => rfl
    | cons r rs =>
      subst hr
      have h1 : pyJoin sep ((x :: r :: rs) ++ ys) =
          x ++ sep ++ pyJoin sep ((r :: rs) ++ ys) := by
        rw [show ((x :: r :: rs) ++ ys) = x :: r :: (rs ++ ys) from rfl]
        rw [show ((r :: rs) ++ ys) = r :: (rs ++ ys) from rfl]
        exact pyJoin_cons_cons sep x r (rs ++ ys)
      rw [h1, ih ys (by simp) hys, pyJoin_cons_cons]
      simp [List.append_assoc]

theorem interBlocks_ne_nil {bs : List (List Text)} (hne : bs ≠ [])
    (h : ∀ b ∈ bs, b ≠ []) : interBlocks bs ≠ [] := by
  cases bs with
  | nil => exact absurd rfl hne
  | cons b rest =>
    cases rest with
    | nil => exact h b (List.mem_cons_self _ _)
    | cons r rs =>
      show b ++ [] :: interBlocks (r :: rs) ≠ []
      simp

/-- Lemma: `'\n\n'.join(blocks)` equals the newline-join of the blocks' lines with
one empty line interposed between blocks. -/
theorem pyJoin_blocks : ∀ (bs : List (List Text)), (∀ b ∈ bs, b ≠ []) →
    pyJoin (txt "\n\n") (bs.map (pyJoin ['\n'])) = pyJoin ['\n'] (interBlocks bs) := by
  intro bs
  induction bs with
  | nil => intro _; rfl
  | cons b rest ih =>
    intro h
    cases hr : rest with
    | nil => rfl
    | cons r rs =>
      subst hr
      rw [List.map_cons, List.map_cons, pyJoin_cons_cons, ← List.map_cons]
      rw [ih (fun b' hb' => h b' (List.mem_cons_of_mem _ hb'))]
      rw [show interBlocks (b :: r :: rs) = b ++ [] :: interBlocks (r :: rs) from rfl]
      have hbne : b ≠ [] := h b (List.mem_cons_self _ _)
      have hine : interBlocks (r :: rs) ≠ [] :=
        interBlocks_ne_nil (by simp) (fun b' hb' => h b' (List.mem_cons_of_mem _ hb'))
      rw [pyJoin_append ['\n'] b ([] :: interBlocks (r :: rs)) hbne (by simp)]
      have : pyJoin ['\n'] ([] :: interBlocks (r :: rs)) =
          [] ++ ['\n'] ++ pyJoin ['\n'] (interBlocks (r :: rs)) := by
        cases hi : interBlocks (r :: rs) with
        | nil => exact absurd hi hine
        | cons i is => rfl
      rw [this]
      simp [List.append_assoc]
      rfl

theorem pyJoin_single (x : Text) : pyJoin ['\n'] [x] = x := rfl

/-- One rendered category block is the newline-join of its lines. -/
theorem renderCatSection_eq_join (g : Text × List Entry) (hne : g.2 ≠ []) :
    renderCatSection g.1 g.2 = pyJoin ['\n'] (blockLines g) := by
  obtain ⟨name, items⟩ := g
  cases items with
  | nil => exact absurd rfl hne
  | cons i is =>
    unfold renderCatSection blockLines decoName
    dsimp only
    rw [show ([txt "<details>", txt "<summary>📑 " ++
        (name ++ txt " (" ++ natText (countChecked (i :: is)) ++ ['/'] ++
          natText (i :: is).length ++ txt ")") ++ txt "</summary>", []] ++
        (i :: is).map renderItem ++ [txt "</details>"]) =
      txt "<details>" :: (txt "<summary>📑 " ++
        (name ++ txt " (" ++ natText (countChecked (i :: is)) ++ ['/'] ++
          natText (i :: is).length ++ txt ")") ++ txt "</summary>") :: ([] : Text) ::
        ((i :: is).map renderItem ++ [txt "</details>"]) from by simp]
    rw [pyJoin_cons_cons, pyJoin_cons_cons]
    have hmapne : (i :: is).map renderItem ≠ [] := by simp
    rw [show (([] : Text) :: ((i :: is).map renderItem ++ [txt "</details>"])) =
      (([] : Text) :: (i :: is).map renderItem) ++ [txt "</details>"] from by simp]
    rw [pyJoin_append ['\n'] _ _ (by simp) (by simp)]
    rw [show pyJoin ['\n'] (([] : Text) :: (i :: is).map renderItem) =
      [] ++ ['\n'] ++ pyJoin ['\n'] ((i :: is).map renderItem) from by
        cases hm : (i :: is).map renderItem with
        | nil => exact absurd hm hmapne
        | cons a as => rfl]
    rw [pyJoin_single]
    rw [show txt "<details>\n<summary>📑 " =
      txt "<details>" ++ ['\n'] ++ txt "<summary>📑 " from by decide]
    rw [show txt ")</summary>\n\n" =
      txt ")" ++ (txt "</summary>" ++ (['\n'] ++ ['\n'])) from by decide]
    rw [show txt "\n</details>" = ['\n'] ++ txt "</details>" from by decide]
    rw [show (txt "\n") = ['\n'] from rfl]
    simp [List.append_assoc]

/-! ### The grouping pass of `create_todo_section` on a flattened ledger -/

theorem groupTodos_cons (checked : Bool) (text : Text) (rest : List Entry)
    (mgr : CategoryMgr) (gen : List Entry) (cz : Categorized) :
    groupTodos ((checked, text) :: rest) mgr gen cz =
      if startsWithChar '@' text then
        groupTodos rest
          (set_current (add_category mgr (pyStrip (text.drop 1))).1
            (add_category mgr (pyStrip (text.drop 1))).2) gen cz
      else
        if mgr.current == txt "General" then
          groupTodos rest mgr (gen ++ [(checked, text)]) cz
        else
          groupTodos rest mgr gen
            (catAppend cz (pyLower mgr.current) mgr.current (checked, text)) := rfl

theorem catLookup_none_of_not_mem {m : List (Text × Text)} {k : Text}
    (h : k ∉ m.map Prod.fst) : catLookup m k = none := by
  induction m with
  | nil => rfl
  | cons p rest ih =>
    obtain ⟨k', v⟩ := p
    rw [List.map_cons] at h
    have h1 : k' ≠ k := fun hc => h (by rw [← hc]; exact List.mem_cons_self _ _)
    have h2 : k ∉ rest.map Prod.fst := fun hm => h (List.mem_cons_of_mem _ hm)
    show (if k' == k then some v else catLookup rest k) = none
    rw [if_neg (by simp [h1])]
    exact ih h2

theorem catLookup_append_self {m : List (Text × Text)} {k v : Text}
    (h : catLookup m k = none) : catLookup (m ++ [(k, v)]) k = some v := by
  induction m with
  | nil => simp [catLookup]
  | cons p rest ih =>
    unfold catLookup at h ⊢
    rw [List.cons_append]
    split at h
    · cases h
    · rename_i hne
      show (if p.1 == k then some p.2 else catLookup (rest ++ [(k, v)]) k) = some v
      rw [if_neg hne]
      exact ih h

/-- Processing a fresh category marker registers the category and makes it
current. -/
theorem groupTodos_marker_fresh {name : Text} (rest : List Entry)
    (mgr : CategoryMgr) (gen : List Entry) (cz : Categorized)
    (htrim : pyStrip name = name) (hne : name ≠ [])
    (hlook : catLookup mgr.categories (pyLower name) = none) :
    groupTodos ((false, '@' :: name) :: rest) mgr gen cz =
      groupTodos rest ⟨mgr.categories ++ [(pyLower name, name)], name⟩ gen cz := by
  rw [groupTodos_cons, if_pos (show startsWithChar '@' ('@' :: name) = true from rfl)]
  have hdrop : (('@' :: name : Text).drop 1) = name := rfl
  rw [hdrop, htrim]
  have hadd : add_category mgr name =
      (⟨mgr.categories ++ [(pyLower name, name)], mgr.current⟩, name) := by
    unfold add_category
    rw [if_neg (by simp [hne])]
    dsimp only
    rw [htrim, hlook]
  rw [hadd]
  have hset : set_current (⟨mgr.categories ++ [(pyLower name, name)], mgr.current⟩ :
      CategoryMgr) name =
      ⟨mgr.categories ++ [(pyLower name, name)], name⟩ := by
    unfold set_current
    rw [if_neg (by simp [hne])]
    unfold add_category
    rw [if_neg (by simp [hne])]
    dsimp only
    rw [htrim, catLookup_append_self hlook]
  rw [hset]

/-- Processing an item while the current category is not `General` appends
it to the categorized dict. -/
theorem groupTodos_item (checked : Bool) (text : Text) (rest : List Entry)
    (mgr : CategoryMgr) (gen : List Entry) (cz : Categorized)
    (ht : startsWithChar '@' text = false) (hcur : mgr.current ≠ txt "General") :
    groupTodos ((checked, text) :: rest) mgr gen cz =
      groupTodos rest mgr gen
        (catAppend cz (pyLower mgr.current) mgr.current (checked, text)) := by
  rw [groupTodos_cons, if_neg (by rw [ht]; simp), if_neg (by simp [hcur])]

theorem groupTodos_item_general (checked : Bool) (text : Text) (rest : List Entry)
    (mgr : CategoryMgr) (gen : List Entry) (cz : Categorized)
    (ht : startsWithChar '@' text = false) (hcur : mgr.current = txt "General") :
    groupTodos ((checked, text) :: rest) mgr gen cz =
      groupTodos rest mgr (gen ++ [(checked, text)]) cz := by
  rw [groupTodos_cons, if_neg (by rw [ht]; simp), if_pos (by simp [hcur])]

theorem catAppend_fresh {cz : Categorized} {key : Text} (name : Text) (it : Entry)
    (h : key ∉ cz.map (fun x => x.1)) :
    catAppend cz key name it = cz ++ [(key, name, [it])] := by
  induction cz with
  | nil => rfl
  | cons p rest ih =>
    obtain ⟨k, n, its⟩ := p
    rw [List.map_cons] at h
    have h1 : k ≠ key := fun hc => h (by rw [← hc]; exact List.mem_cons_self _ _)
    have h2 : key ∉ rest.map (fun x => x.1) := fun hm => h (List.mem_cons_of_mem _ hm)
    show (if k == key then ((k, n, its ++ [it]) :: rest : Categorized)
      else (k, n, its) :: catAppend rest key name it) = _
    rw [if_neg (by simp [h1])]
    rw [ih h2]
    rfl

theorem catAppend_last {cz : Categorized} {key : Text} (name name' : Text)
    (its : List Entry) (it : Entry) (h : key ∉ cz.map (fun x => x.1)) :
    catAppend (cz ++ [(key, name, its)]) key name' it =
      cz ++ [(key, name, its ++ [it])] := by
  induction cz with
  | nil =>
    show (if key == key then ((key, name, its ++ [it]) :: [] : Categorized)
      else (key, name, its) :: catAppend [] key name' it) = _
    rw [if_pos (by simp)]
    rfl
  | cons p rest ih =>
    obtain ⟨k, n, its'⟩ := p
    rw [List.cons_append]
    rw [List.map_cons] at h
    have h1 : k ≠ key := fun hc => h (by rw [← hc]; exact List.mem_cons_self _ _)
    have h2 : key ∉ rest.map (fun x => x.1) := fun hm => h (List.mem_cons_of_mem _ hm)
    show (if k == key then ((k, n, its' ++ [it]) :: (rest ++ [(key, name, its)]) : Categorized)
      else (k, n, its') :: catAppend (rest ++ [(key, name, its)]) key name' it) = _
    rw [if_neg (by simp [h1])]
    rw [ih h2]
    rfl

/-- A run of items under one fresh non-General category accumulates exactly
into that category's bucket. -/
theorem groupTodos_items_run : ∀ (items rest : List Entry) (mgr : CategoryMgr)
    (gen : List Entry) (cz : Categorized) (acc : List Entry) (name : Text),
    mgr.current = name →
    (∀ e ∈ items, startsWithChar '@' e.2 = false) →
    name ≠ txt "General" →
    pyLower name ∉ cz.map (fun x => x.1) →
    groupTodos (items ++ rest) mgr gen (cz ++ [(pyLower name, name, acc)]) =
      groupTodos rest mgr gen (cz ++ [(pyLower name, name, acc ++ items)]) := by
  intro items
  induction items with
  | nil => intro rest mgr gen cz acc name _ _ _ _; simp
  | cons e is ih =>
    intro rest mgr gen cz acc name hname hit hcur hkey
    obtain ⟨checked, text⟩ := e
    rw [List.cons_append]
    rw [groupTodos_item checked text _ mgr gen _
      (hit _ (List.mem_cons_self _ _)) (by rw [hname]; exact hcur)]
    rw [hname]
    rw [catAppend_last name name acc (checked, text) hkey]
    rw [ih rest mgr gen cz (acc ++ [(checked, text)]) name hname
      (fun e' he' => hit e' (List.mem_cons_of_mem _ he')) hcur hkey]
    simp

/-- The grouping loop over the flattened non-General groups. -/
theorem groupTodos_groups : ∀ (G : Grouped) (regs : List (Text × Text)) (cur : Text)
    (gen : List Entry) (cz : Categorized),
    (∀ g ∈ G, wfGroup g) →
    (∀ g ∈ G, pyLower g.1 ≠ txt "general") →
    ((G.map (fun g => pyLower g.1)).Nodup) →
    (∀ g ∈ G, pyLower g.1 ∉ regs.map Prod.fst) →
    (∀ g ∈ G, pyLower g.1 ∉ cz.map (fun x => x.1)) →
    ∃ mgrF, groupTodos (flattenGrouped G)
        ⟨(txt "general", txt "General") :: regs, cur⟩ gen cz =
      (mgrF, gen, cz ++ G.map (fun g => (pyLower g.1, g.1, g.2))) := by
  intro G
  induction G with
  | nil =>
    intro regs cur gen cz _ _ _ _ _
    exact ⟨⟨(txt "general", txt "General") :: regs, cur⟩, by simp [flattenGrouped, groupTodos]⟩
  | cons g rest ih =>
    intro regs cur gen cz hwf hgen hnd hregs hcz
    obtain ⟨name, items⟩ := g
    obtain ⟨htrim, hne, _, _, _, hitems, hit⟩ := hwf _ (List.mem_cons_self _ _)
    have hgname : pyLower name ≠ txt "general" := hgen _ (List.mem_cons_self _ _)
    have hflat : flattenGrouped ((name, items) :: rest) =
        (false, '@' :: name) :: (items ++ flattenGrouped rest) := by
      simp [flattenGrouped]
    rw [hflat]
    have hlook : catLookup ((txt "general", txt "General") :: regs) (pyLower name) = none := by
      unfold catLookup
      rw [if_neg (by simp; exact fun hc => hgname hc.symm)]
      exact catLookup_none_of_not_mem (hregs _ (List.mem_cons_self _ _))
    rw [groupTodos_marker_fresh _ _ gen cz htrim hne hlook]
    have hcurne : name ≠ txt "General" := by
      intro hc
      subst hc
      exact hgname (by decide)
    cases items with
    | nil => exact absurd rfl hitems
    | cons i is =>
      obtain ⟨ic, itx⟩ := i
      obtain ⟨hi1, _, _, _, _⟩ := hit (ic, itx) (List.mem_cons_self _ _)
      rw [List.cons_append]
      rw [groupTodos_item ic itx _ _ gen cz hi1 hcurne]
      dsimp only
      rw [@catAppend_fresh cz (pyLower name) name (ic, itx)
        (hcz _ (List.mem_cons_self _ _))]
      rw [groupTodos_items_run is (flattenGrouped rest)
        ⟨((txt "general", txt "General") :: regs) ++ [(pyLower name, name)], name⟩ gen cz
        [(ic, itx)] name rfl
        (fun e' he' => (hit e' (List.mem_cons_of_mem _ he')).1) hcurne
        (hcz _ (List.mem_cons_self _ _))]
      have hcons : (((txt "general", txt "General") :: regs) ++ [(pyLower name, name)]) =
          (txt "general", txt "General") :: (regs ++ [(pyLower name, name)]) := by simp
      rw [hcons]
      have hndrest : ((rest.map (fun g => pyLower g.1)).Nodup) := by
        simp at hnd; exact hnd.2
      have hhead : ∀ g' ∈ rest, pyLower g'.1 ≠ pyLower name := by
        intro g' hg' hc
        simp at hnd
        exact hnd.1 g'.1 g'.2 hg' hc
      obtain ⟨mgrF, hrec⟩ := ih (regs ++ [(pyLower name, name)]) name gen
        (cz ++ [(pyLower name, name, (ic, itx) :: is)])
        (fun g' hg' => hwf g' (List.mem_cons_of_mem _ hg'))
        (fun g' hg' => hgen g' (List.mem_cons_of_mem _ hg'))
        hndrest
        (by
          intro g' hg'
          simp only [List.map_append, List.mem_append]
          push_neg
          exact ⟨hregs g' (List.mem_cons_of_mem _ hg'), by
            simp
            exact hhead g' hg'⟩)
        (by
          intro g' hg'
          simp only [List.map_append, List.mem_append]
          push_neg
          exact ⟨hcz g' (List.mem_cons_of_mem _ hg'), by
            simp
            exact hhead g' hg'⟩)
      refine ⟨mgrF, ?_⟩
      rw [show ([(ic, itx)] ++ is : List Entry) = (ic, itx) :: is from rfl]
      rw [hrec]
      simp

theorem renderCategorized_map : ∀ (G : Grouped) (processed : List Text),
    (∀ g ∈ G, g.2 ≠ []) →
    (∀ g ∈ G, pyLower g.1 ∉ processed) →
    ((G.map (fun g => pyLower g.1)).Nodup) →
    renderCategorized (G.map (fun g => (pyLower g.1, g.1, g.2))) processed =
      G.map (fun g => renderCatSection g.1 g.2) := by
  intro G
  induction G with
  | nil => intro processed _ _ _; rfl
  | cons g rest ih =>
    intro processed hne hproc hnd
    obtain ⟨name, items⟩ := g
    rw [List.map_cons, List.map_cons]
    show renderCategorized ((pyLower name, name, items) ::
      rest.map (fun g => (pyLower g.1, g.1, g.2))) processed = _
    unfold renderCategorized
    rw [if_neg (by
      have h1 : (items == ([] : List Entry)) = false := by
        simp [hne _ (List.mem_cons_self _ _)]
      have h2 : processed.contains (pyLower name) = false :=
        contains_eq_false.mpr (hproc _ (List.mem_cons_self _ _))
      rw [h1, h2]
      simp)]
    rw [ih (pyLower name :: processed)
      (fun g' hg' => hne g' (List.mem_cons_of_mem _ hg'))
      (by
        intro g' hg' hmem
        rcases List.mem_cons.mp hmem with heq | htl
        · simp at hnd
          exact hnd.1 g'.1 g'.2 hg' heq
        · exact hproc g' (List.mem_cons_of_mem _ hg') htl)
      (by simp at hnd; exact hnd.2)]

/-- A run of ordinary items while the current category is `General` goes
entirely into the `general` bucket. -/
theorem groupTodos_general_run : ∀ (items rest : List Entry) (mgr : CategoryMgr)
    (gen : List Entry) (cz : Categorized),
    mgr.current = txt "General" →
    (∀ e ∈ items, startsWithChar '@' e.2 = false) →
    groupTodos (items ++ rest) mgr gen cz = groupTodos rest mgr (gen ++ items) cz := by
  intro items
  induction items with
  | nil => intro rest mgr gen cz _ _; simp
  | cons e is ih =>
    intro rest mgr gen cz hcur hit
    obtain ⟨ic, itx⟩ := e
    rw [List.cons_append]
    rw [groupTodos_item_general ic itx _ _ gen cz
      (hit (ic, itx) (List.mem_cons_self _ _)) hcur]
    rw [ih rest mgr (gen ++ [(ic, itx)]) cz hcur
      (fun e' he' => hit e' (List.mem_cons_of_mem _ he'))]
    simp

/-- Lemma: `create_todo_section` on the flattened form of a well-formed grouped
ledger renders exactly one block per group, General first. -/
theorem create_todo_section_flatten (G : Grouped)
    (hne : G ≠ [])
    (hwf : ∀ g ∈ G, wfGroup g)
    (hnd : (G.map (fun g => pyLower g.1)).Nodup)
    (hgen0 : ∀ g ∈ G, pyLower g.1 = txt "general" → g.1 = txt "General")
    (hgen1 : ∀ g ∈ G.drop 1, pyLower g.1 ≠ txt "general") :
    create_todo_section (flattenGrouped G) =
      pyJoin (txt "\n\n") (G.map (fun g => renderCatSection g.1 g.2)) := by
  cases G with
  | nil => exact absurd rfl hne
  | cons g rest =>
    obtain ⟨name, items⟩ := g
    obtain ⟨htrim, hnen, _, _, _, hitems, hit⟩ := hwf _ (List.mem_cons_self _ _)
    have hflatne : flattenGrouped ((name, items) :: rest) ≠ [] := by
      simp [flattenGrouped]
    unfold create_todo_section
    rw [if_neg (by simp [hflatne])]
    by_cases hg : pyLower name = txt "general"
    · -- the head group is the canonical General group
      have hnameG : name = txt "General" := hgen0 _ (List.mem_cons_self _ _) hg
      subst hnameG
      have hflat : flattenGrouped ((txt "General", items) :: rest) =
          (false, '@' :: txt "General") :: (items ++ flattenGrouped rest) := by
        simp [flattenGrouped]
      rw [hflat]
      have hstep : groupTodos ((false, '@' :: txt "General") ::
            (items ++ flattenGrouped rest)) initialCategoryMgr [] [] =
          groupTodos (items ++ flattenGrouped rest) initialCategoryMgr [] [] := rfl
      rw [hstep]
      rw [groupTodos_general_run items (flattenGrouped rest) initialCategoryMgr [] [] rfl
        (fun e he => (hit e he).1)]
      obtain ⟨mgrF, hrec⟩ := groupTodos_groups rest [] (txt "General") ([] ++ items) []
        (fun g' hg' => hwf g' (List.mem_cons_of_mem _ hg'))
        (fun g' hg' => hgen1 g' (by simpa using hg'))
        (by simp at hnd; exact hnd.2)
        (by intro g' hg'; simp)
        (by intro g' hg'; simp)
      rw [show (initialCategoryMgr : CategoryMgr) =
        ⟨(txt "general", txt "General") :: [], txt "General"⟩ from rfl]
      rw [hrec]
      dsimp only
      rw [if_neg (by simp [hitems])]
      simp only [List.nil_append]
      rw [renderCategorized_map rest [txt "general"]
        (fun g' hg' => (hwf g' (List.mem_cons_of_mem _ hg')).2.2.2.2.2.1)
        (by
          intro g' hg' hmem
          rcases List.mem_cons.mp hmem with heq | htl
          · exact hgen1 g' (by simpa using hg') heq
          · cases htl)
        (by simp at hnd; exact hnd.2)]
      rw [List.map_cons]
      cases hrest : rest with
      | nil => rfl
      | cons r rs => rfl
    · -- no General group at the head: every group is non-general
      have hgenall : ∀ g' ∈ (name, items) :: rest, pyLower g'.1 ≠ txt "general" := by
        intro g' hg'
        rcases List.mem_cons.mp hg' with rfl | htl
        · exact hg
        · exact hgen1 g' (by simpa using htl)
      obtain ⟨mgrF, hrec⟩ := groupTodos_groups ((name, items) :: rest) [] (txt "General") [] []
        hwf hgenall hnd (by intro g' hg'; simp) (by intro g' hg'; simp)
      rw [show (initialCategoryMgr : CategoryMgr) =
        ⟨(txt "general", txt "General") :: [], txt "General"⟩ from rfl]
      rw [hrec]
      dsimp only
      rw [if_pos (by simp)]
      simp only [List.nil_append]
      rw [renderCategorized_map ((name, items) :: rest) []
        (fun g' hg' => (hwf g' hg').2.2.2.2.2.1)
        (by intro g' _ hmem; cases hmem)
        hnd]

/-! ### Character membership in the rendered pieces -/

theorem not_mem_decoName {c : Char} (g : Text × List Entry)
    (h1 : c ∉ g.1) (h2 : c.isDigit = false) (h3 : c ∉ txt " (")
    (h4 : c ∉ (['/'] : Text)) (h5 : c ∉ txt ")") : c ∉ decoName g := by
  unfold decoName
  intro hmem
  simp only [List.mem_append] at hmem
  rcases hmem with ((((ha | hb) | hc) | hd) | he) | hf
  · exact h1 ha
  · exact h3 hb
  · rw [natText_digits hc] at h2; cases h2
  · exact h4 hd
  · rw [natText_digits he] at h2; cases h2
  · exact h5 hf

theorem renderItem_unchecked (t : Text) : renderItem (false, t) = txt "- [ ] " ++ t := rfl

theorem renderItem_checked (t : Text) : renderItem (true, t) = txt "- [x] " ++ t := rfl

theorem not_mem_renderItem {c : Char} (e : Entry) (h1 : c ∉ e.2)
    (h2 : c ∉ txt "- [ ] ") (h3 : c ∉ txt "- [x] ") : c ∉ renderItem e := by
  obtain ⟨ck, t⟩ := e
  cases ck
  · rw [renderItem_unchecked]
    intro hm
    rcases List.mem_append.mp hm with h | h
    exacts [h2 h, h1 h]
  · rw [renderItem_checked]
    intro hm
    rcases List.mem_append.mp hm with h | h
    exacts [h3 h, h1 h]

theorem mem_interBlocks : ∀ {bs : List (List Text)} {l : Text}, l ∈ interBlocks bs →
    l = [] ∨ ∃ b ∈ bs, l ∈ b := by
  intro bs
  induction bs with
  | nil => intro l h; cases h
  | cons b rest ih =>
    intro l h
    cases hr : rest with
    | nil =>
      subst hr
      exact Or.inr ⟨b, List.mem_cons_self _ _, h⟩
    | cons r rs =>
      subst hr
      rw [show interBlocks (b :: r :: rs) = b ++ [] :: interBlocks (r :: rs) from rfl] at h
      rcases List.mem_append.mp h with h1 | h2
      · exact Or.inr ⟨b, List.mem_cons_self _ _, h1⟩
      · rcases List.mem_cons.mp h2 with rfl | h3
        · exact Or.inl rfl
        · rcases ih h3 with h4 | ⟨b2, hb2, hl⟩
          · exact Or.inl h4
          · exact Or.inr ⟨b2, List.mem_cons_of_mem _ hb2, hl⟩

theorem blockLines_no_newline (g : Text × List Entry) (hwf : wfGroup g) :
    ∀ l ∈ blockLines g, '\n' ∉ l := by
  obtain ⟨htrim, hne, hlt, hfg, hnl, hitems, hit⟩ := hwf
  intro l hl
  unfold blockLines at hl
  simp only [List.append_assoc, List.cons_append, List.nil_append, List.mem_cons,
    List.mem_append, List.mem_singleton, List.mem_map] at hl
  rcases hl with rfl | rfl | rfl | ⟨e, he, rfl⟩ | rfl | hF
  · decide
  · intro hm
    rcases List.mem_append.mp hm with hm1 | hm2
    · revert hm1; decide
    · rcases List.mem_append.mp hm2 with hm3 | hm4
      · exact not_mem_decoName g hnl (by decide) (by decide) (by decide) (by decide) hm3
      · revert hm4; decide
  · intro hm; cases hm
  · exact not_mem_renderItem e (hit e he).2.2.2.2 (by decide) (by decide)
  · decide
  · cases hF

theorem blockLines_stop_not_prefix (g : Text × List Entry) (hwf : wfGroup g) :
    ∀ l ∈ blockLines g, (txt "<div align=\"center\">").isPrefixOf l = false := by
  obtain ⟨htrim, hne, hlt, hfg, hnl, hitems, hit⟩ := hwf
  intro l hl
  unfold blockLines at hl
  simp only [List.append_assoc, List.cons_append, List.nil_append, List.mem_cons,
    List.mem_append, List.mem_singleton, List.mem_map] at hl
  rcases hl with rfl | rfl | rfl | ⟨e, he, rfl⟩ | rfl | hF
  · decide
  · rfl
  · decide
  · obtain ⟨ck, t⟩ := e
    cases ck
    · rw [renderItem_unchecked]; rfl
    · rw [renderItem_checked]; rfl
  · decide
  · cases hF

theorem head?_append_of_ne_nil {x y : Text} (h : x ≠ []) : (x ++ y).head? = x.head? := by
  cases x with
  | nil => exact absurd rfl h
  | cons a as => rfl

theorem decoName_eq_right_assoc (g : Text × List Entry) :
    decoName g = g.1 ++ (txt " (" ++ (natText (countChecked g.2) ++
      (['/'] ++ (natText g.2.length ++ txt ")")))) := by
  unfold decoName
  simp [List.append_assoc]

theorem decoName_getLast? (g : Text × List Entry) : (decoName g).getLast? = some ')' := by
  unfold decoName
  rw [List.getLast?_append_of_ne_nil _ (by decide : txt ")" ≠ [])]
  decide

theorem pyStrip_decoName (g : Text × List Entry) (htrim : pyStrip g.1 = g.1)
    (hne : g.1 ≠ []) : pyStrip (decoName g) = decoName g := by
  apply pyStrip_eq_self_of_ends
  · intro ch hch
    rw [decoName_eq_right_assoc, head?_append_of_ne_nil hne] at hch
    exact (pyStrip_ends htrim).1 ch hch
  · intro ch hch
    rw [decoName_getLast? g] at hch
    cases hch
    decide

theorem pyStrip_cons_space (s : Text) : pyStrip (' ' :: s) = pyStrip s := by
  unfold pyStrip
  rw [List.dropWhile_cons_of_pos (by decide)]

theorem pyJoin_concat (sep : Text) : ∀ (ls : List Text) (l : Text),
    ∃ pre, pyJoin sep (ls ++ [l]) = pre ++ l := by
  intro ls
  induction ls with
  | nil => intro l; exact ⟨[], rfl⟩
  | cons x rest ih =>
    intro l
    obtain ⟨pre, hpre⟩ := ih l
    cases hr : rest with
    | nil =>
      subst hr
      exact ⟨x ++ sep, rfl⟩
    | cons r rs =>
      subst hr
      refine ⟨x ++ sep ++ pre, ?_⟩
      rw [show ((x :: r :: rs) ++ [l]) = x :: ((r :: rs) ++ [l]) from rfl]
      rw [show pyJoin sep (x :: ((r :: rs) ++ [l])) =
        x ++ sep ++ pyJoin sep ((r :: rs) ++ [l]) from rfl]
      rw [hpre, List.append_assoc, List.append_assoc, List.append_assoc]

theorem renderCatSection_concat (name : Text) (items : List Entry) :
    ∃ pre, renderCatSection name items = pre ++ txt "</details>" := by
  refine ⟨txt "<details>\n<summary>📑 " ++ name ++ txt " (" ++ natText (countChecked items) ++
    ['/'] ++ natText items.length ++ txt ")</summary>\n\n" ++
    pyJoin (txt "\n") (items.map renderItem) ++ ['\n'], ?_⟩
  unfold renderCatSection
  rw [show txt "\n</details>" = ['\n'] ++ txt "</details>" from by decide]
  rw [← List.append_assoc]

theorem getLast?_mem_text : ∀ {s : Text} {c : Char}, s.getLast? = some c → c ∈ s := by
  intro s
  induction s with
  | nil => intro c h; cases h
  | cons a rest ih =>
    intro c h
    cases hr : rest with
    | nil =>
      subst hr
      have : a = c := by simpa using h
      subst this
      exact List.mem_cons_self _ _
    | cons b bs =>
      subst hr
      rw [List.getLast?_cons_cons] at h
      exact List.mem_cons_of_mem _ (ih h)

theorem not_mem_pyJoin_nil {c : Char} : ∀ {l : List Text},
    (∀ x ∈ l, c ∉ x) → c ∉ pyJoin [] l := by
  intro l
  induction l with
  | nil => intro _ hm; cases hm
  | cons x rest ih =>
    intro h
    cases hr : rest with
    | nil =>
      subst hr
      exact h x (List.mem_cons_self _ _)
    | cons r rs =>
      subst hr
      rw [show pyJoin [] (x :: r :: rs) = x ++ [] ++ pyJoin [] (r :: rs) from rfl]
      intro hm
      rcases List.mem_append.mp hm with hm1 | hm2
      · rcases List.mem_append.mp hm1 with hm3 | hm4
        · exact h x (List.mem_cons_self _ _) hm3
        · cases hm4
      · exact ih (fun y hy => h y (List.mem_cons_of_mem _ hy)) hm2

/-! ### `parseTodoLines` over the rendered lines -/

theorem parseTodoLines_cons (line : Text) (rest : List Text) (cur : Text) :
    parseTodoLines (line :: rest) cur =
      (if pyStrip line == [] then parseTodoLines rest cur
       else if containsSub (txt "<details>") (pyStrip line) then parseTodoLines rest cur
       else if containsSub (txt "</details>") (pyStrip line) then parseTodoLines rest cur
       else if containsSub (txt "<summary>📑") (pyStrip line) then
         match (pySplitChar '📑' (pyStrip line)).get? 1 with
         | none => none
         | some mid =>
           (parseTodoLines rest (pyStrip (beforeFirst (txt "</summary>") mid))).map
             (fun ts => (false, '@' :: pyStrip (beforeFirst (txt "</summary>") mid)) :: ts)
       else if (txt "- [ ] ").isPrefixOf (pyStrip line) then
         (parseTodoLines rest cur).map (fun ts => (false, (pyStrip line).drop 6) :: ts)
       else if (txt "- [x] ").isPrefixOf (pyStrip line) then
         (parseTodoLines rest cur).map (fun ts => (true, (pyStrip line).drop 6) :: ts)
       else parseTodoLines rest cur) := rfl

theorem parseTodoLines_skip_details (R : List Text) (cur : Text) :
    parseTodoLines (txt "<details>" :: R) cur = parseTodoLines R cur := rfl

theorem parseTodoLines_skip_enddetails (R : List Text) (cur : Text) :
    parseTodoLines (txt "</details>" :: R) cur = parseTodoLines R cur := rfl

theorem parseTodoLines_skip_empty (R : List Text) (cur : Text) :
    parseTodoLines (([] : Text) :: R) cur = parseTodoLines R cur := rfl

theorem parseTodoLines_skip_ediv (R : List Text) (cur : Text) :
    parseTodoLines (txt "</div>" :: R) cur = parseTodoLines R cur := rfl

/-- A rendered category header line re-emits an `@`-marker carrying the
decorated name (the counter suffix included) and switches the current
category to it. -/
theorem parseTodoLines_step_header (g : Text × List Entry) (R : List Text) (cur : Text)
    (hwf : wfGroup g) :
    parseTodoLines ((txt "<summary>📑 " ++ decoName g ++ txt "</summary>") :: R) cur =
      (parseTodoLines R (decoName g)).map (fun ts => (false, '@' :: decoName g) :: ts) := by
  obtain ⟨htrim, hne, hlt, hfg, hnl, hitems, hit⟩ := hwf
  have hdlt : '<' ∉ decoName g :=
    not_mem_decoName g hlt (by decide) (by decide) (by decide) (by decide)
  have hdfg : '📑' ∉ decoName g :=
    not_mem_decoName g hfg (by decide) (by decide) (by decide) (by decide)
  have hLhead : (txt "<summary>📑 " ++ decoName g ++ txt "</summary>").head? = some '<' := rfl
  have hLlast : (txt "<summary>📑 " ++ decoName g ++ txt "</summary>").getLast? = some '>' := by
    rw [List.getLast?_append_of_ne_nil _ (by decide : txt "</summary>" ≠ [])]
    decide
  have hstrip : pyStrip (txt "<summary>📑 " ++ decoName g ++ txt "</summary>") =
      txt "<summary>📑 " ++ decoName g ++ txt "</summary>" := by
    apply pyStrip_eq_self_of_ends
    · intro ch hch
      rw [hLhead] at hch
      cases hch
      decide
    · intro ch hch
      rw [hLlast] at hch
      cases hch
      decide
  rw [parseTodoLines_cons, hstrip]
  rw [if_neg (by
    rw [show ((txt "<summary>📑 " ++ decoName g ++ txt "</summary>") == ([] : Text)) = false
      from rfl]
    simp)]
  have hc1 : containsSub (txt "<details>") (txt "<summary>📑 " ++ decoName g ++
      txt "</summary>") = false := by
    rw [List.append_assoc]
    apply containsSub_append_false_of_suffix
      (show (txt "<details>").head? = some '<' from rfl)
    · intro w hw hwhead
      have hdec : ∀ w2 ∈ (txt "<summary>📑 ").tails, w2.head? = some '<' →
          w2 = txt "<summary>📑 " := by decide
      have hwall : w = txt "<summary>📑 " := hdec w ((List.mem_tails _ _).mpr hw) hwhead
      subst hwall
      rfl
    · exact containsSub_append_of_not_mem
        (show (txt "<details>").head? = some '<' from rfl) hdlt (by decide)
  have hc2 : containsSub (txt "</details>") (txt "<summary>📑 " ++ decoName g ++
      txt "</summary>") = false := by
    rw [List.append_assoc]
    apply containsSub_append_false_of_suffix
      (show (txt "</details>").head? = some '<' from rfl)
    · intro w hw hwhead
      have hdec : ∀ w2 ∈ (txt "<summary>📑 ").tails, w2.head? = some '<' →
          w2 = txt "<summary>📑 " := by decide
      have hwall : w = txt "<summary>📑 " := hdec w ((List.mem_tails _ _).mpr hw) hwhead
      subst hwall
      rfl
    · exact containsSub_append_of_not_mem
        (show (txt "</details>").head? = some '<' from rfl) hdlt (by decide)
  have hc3 : containsSub (txt "<summary>📑") (txt "<summary>📑 " ++ decoName g ++
      txt "</summary>") = true := by
    apply containsSub_of_isPrefixOf
    rw [show txt "<summary>📑 " = txt "<summary>📑" ++ [' '] from by decide]
    rw [List.append_assoc, List.append_assoc]
    exact isPrefixOf_append_self _ _
  rw [if_neg (by rw [hc1]; simp), if_neg (by rw [hc2]; simp), if_pos (by rw [hc3])]
  have hsplit : pySplitChar '📑' (txt "<summary>📑 " ++ decoName g ++ txt "</summary>") =
      [txt "<summary>", ' ' :: (decoName g ++ txt "</summary>")] := by
    rw [show txt "<summary>📑 " = txt "<summary>" ++ '📑' :: [' '] from by decide]
    rw [List.append_assoc, List.append_assoc]
    rw [show ('📑' :: [' '] : Text) ++ (decoName g ++ txt "</summary>") =
      '📑' :: (' ' :: (decoName g ++ txt "</summary>")) from rfl]
    rw [pySplitChar_append_sep (by decide)]
    rw [pySplitChar_no_sep (by
      intro hm
      rcases List.mem_cons.mp hm with h | h
      · cases h
      · rcases List.mem_append.mp h with h2 | h2
        · exact hdfg h2
        · revert h2; decide)]
  rw [hsplit]
  show (parseTodoLines R (pyStrip (beforeFirst (txt "</summary>")
      (' ' :: (decoName g ++ txt "</summary>"))))).map _ = _
  have hbf : beforeFirst (txt "</summary>") (' ' :: (decoName g ++ txt "</summary>")) =
      ' ' :: decoName g := by
    rw [show (' ' :: (decoName g ++ txt "</summary>")) =
      (' ' :: decoName g) ++ txt "</summary>" from rfl]
    apply beforeFirst_append_self (show (txt "</summary>").head? = some '<' from rfl)
    intro hm
    rcases List.mem_cons.mp hm with h | h
    · cases h
    · exact hdlt h
  rw [hbf, pyStrip_cons_space, pyStrip_decoName g htrim hne]

/-- A rendered item line parses back to exactly its entry. -/
theorem parseTodoLines_step_item (e : Entry) (R : List Text) (cur : Text)
    (hstrip : pyStrip e.2 = e.2) (hne : e.2 ≠ []) (hlt : '<' ∉ e.2) :
    parseTodoLines (renderItem e :: R) cur =
      (parseTodoLines R cur).map (fun ts => e :: ts) := by
  obtain ⟨ck, t⟩ := e
  have hlt2 : ∀ (pre : Text), '<' ∉ pre → '<' ∉ pre ++ t := by
    intro pre hpre hm
    rcases List.mem_append.mp hm with h | h
    exacts [hpre h, hlt h]
  have hlast : ∀ (pre : Text), (pre ++ t).getLast? = t.getLast? :=
    fun pre => List.getLast?_append_of_ne_nil _ hne
  have hstrip2 : ∀ (pre : Text), pre.head? = some '-' → pyStrip (pre ++ t) = pre ++ t := by
    intro pre hpre
    apply pyStrip_eq_self_of_ends
    · intro ch hch
      rw [head?_append_of_ne_nil (by intro hc; rw [hc] at hpre; cases hpre), hpre] at hch
      cases hch
      decide
    · intro ch hch
      rw [hlast] at hch
      exact (pyStrip_ends hstrip).2 ch hch
  cases ck
  · rw [renderItem_unchecked, parseTodoLines_cons, hstrip2 (txt "- [ ] ") rfl]
    rw [if_neg (by
      rw [show ((txt "- [ ] " ++ t) == ([] : Text)) = false from rfl]
      simp)]
    rw [if_neg (by
      rw [containsSub_false_of_head_not_mem (show (txt "<details>").head? = some '<' from rfl)
        (hlt2 (txt "- [ ] ") (by decide))]
      simp)]
    rw [if_neg (by
      rw [containsSub_false_of_head_not_mem (show (txt "</details>").head? = some '<' from rfl)
        (hlt2 (txt "- [ ] ") (by decide))]
      simp)]
    rw [if_neg (by
      rw [containsSub_false_of_head_not_mem (show (txt "<summary>📑").head? = some '<' from rfl)
        (hlt2 (txt "- [ ] ") (by decide))]
      simp)]
    rw [if_pos (by rw [isPrefixOf_append_self])]
    rw [show (txt "- [ ] " ++ t).drop 6 = t from by
      rw [show (6 : Nat) = (txt "- [ ] ").length from rfl]
      exact List.drop_left _ _]
  · rw [renderItem_checked, parseTodoLines_cons, hstrip2 (txt "- [x] ") rfl]
    rw [if_neg (by
      rw [show ((txt "- [x] " ++ t) == ([] : Text)) = false from rfl]
      simp)]
    rw [if_neg (by
      rw [containsSub_false_of_head_not_mem (show (txt "<details>").head? = some '<' from rfl)
        (hlt2 (txt "- [x] ") (by decide))]
      simp)]
    rw [if_neg (by
      rw [containsSub_false_of_head_not_mem (show (txt "</details>").head? = some '<' from rfl)
        (hlt2 (txt "- [x] ") (by decide))]
      simp)]
    rw [if_neg (by
      rw [containsSub_false_of_head_not_mem (show (txt "<summary>📑").head? = some '<' from rfl)
        (hlt2 (txt "- [x] ") (by decide))]
      simp)]
    rw [if_neg (by
      rw [show (txt "- [ ] ").isPrefixOf (txt "- [x] " ++ t) = false from rfl]
      simp)]
    rw [if_pos (by rw [isPrefixOf_append_self])]
    rw [show (txt "- [x] " ++ t).drop 6 = t from by
      rw [show (6 : Nat) = (txt "- [x] ").length from rfl]
      exact List.drop_left _ _]

theorem parseTodoLines_items : ∀ (items : List Entry) (more : List Text) (cur : Text),
    (∀ e ∈ items, pyStrip e.2 = e.2 ∧ e.2 ≠ [] ∧ '<' ∉ e.2) →
    parseTodoLines (items.map renderItem ++ more) cur =
      (parseTodoLines more cur).map (fun ts => items ++ ts) := by
  intro items
  induction items with
  | nil =>
    intro more cur _
    simp
  | cons e es ih =>
    intro more cur h
    rw [List.map_cons, List.cons_append]
    rw [parseTodoLines_step_item e _ cur (h e (List.mem_cons_self _ _)).1
      (h e (List.mem_cons_self _ _)).2.1 (h e (List.mem_cons_self _ _)).2.2]
    rw [ih more cur (fun x hx => h x (List.mem_cons_of_mem _ hx))]
    rw [Option.map_map]
    rfl

/-- One rendered block parses to its decorated marker followed by its items,
leaving the current category set to the decorated name. -/
theorem parseTodoLines_block (g : Text × List Entry) (more : List Text) (cur : Text)
    (hwf : wfGroup g) :
    parseTodoLines (blockLines g ++ more) cur =
      (parseTodoLines more (decoName g)).map
        (fun ts => ((false, '@' :: decoName g) :: g.2) ++ ts) := by
  rw [show blockLines g ++ more = txt "<details>" ::
      ((txt "<summary>📑 " ++ decoName g ++ txt "</summary>") :: (([] : Text) ::
        (g.2.map renderItem ++ (txt "</details>" :: more)))) from by
    unfold blockLines
    simp]
  rw [parseTodoLines_skip_details]
  rw [parseTodoLines_step_header g _ cur hwf]
  rw [parseTodoLines_skip_empty]
  rw [parseTodoLines_items g.2 _ (decoName g)
    (fun e he => ⟨(hwf.2.2.2.2.2.2 e he).2.1, (hwf.2.2.2.2.2.2 e he).2.2.1,
      (hwf.2.2.2.2.2.2 e he).2.2.2.1⟩)]
  rw [parseTodoLines_skip_enddetails]
  rw [Option.map_map]
  rfl

/-- The full line list of the rendered todo section parses back to the
decorated ledger. -/
theorem parseTodoLines_interBlocks : ∀ (G : Grouped) (cur : Text),
    (∀ g ∈ G, wfGroup g) →
    parseTodoLines (interBlocks (G.map blockLines)) cur = some (decorateGrouped G) := by
  intro G
  induction G with
  | nil => intro cur _; rfl
  | cons g rest ih =>
    intro cur h
    cases hr : rest with
    | nil =>
      subst hr
      rw [show interBlocks ([g].map blockLines) = blockLines g from rfl]
      rw [show blockLines g = blockLines g ++ [] from (List.append_nil _).symm]
      rw [parseTodoLines_block g [] cur (h g (List.mem_cons_self _ _))]
      rw [show parseTodoLines [] (decoName g) = some [] from rfl]
      simp [decorateGrouped]
    | cons r rs =>
      subst hr
      rw [show interBlocks ((g :: r :: rs).map blockLines) =
        blockLines g ++ ([] : Text) :: interBlocks ((r :: rs).map blockLines) from rfl]
      rw [parseTodoLines_block g _ cur (h g (List.mem_cons_self _ _))]
      rw [parseTodoLines_skip_empty]
      rw [ih (decoName g) (fun g2 hg2 => h g2 (List.mem_cons_of_mem _ hg2))]
      simp [decorateGrouped]

/-! ### Locating the todo region in the full body -/

theorem findTodoRegion_cons (c : Char) (rest : Text) :
    findTodoRegion (c :: rest) =
      if (txt "## 📝 Todo").isPrefixOf (c :: rest) then
        match wsNlNl ((c :: rest).drop (txt "## 📝 Todo").length) with
        | some r => some (captureUntil (txt "\n\n<div align=\"center\">") r)
        | none => findTodoRegion rest
      else findTodoRegion rest := rfl

/-- The header pattern cannot match starting inside a text that ends in a
newline and holds no `📝`. -/
theorem header_prefix_false (suf B : Text)
    (hlast : suf.getLast? = some '\n') (hmem : '📝' ∉ suf) :
    (txt "## 📝 Todo").isPrefixOf (suf ++ B) = false := by
  cases hx : (txt "## 📝 Todo").isPrefixOf (suf ++ B) with
  | false => rfl
  | true =>
    exfalso
    have hp : txt "## 📝 Todo" <+: suf ++ B := List.isPrefixOf_iff_prefix.mp hx
    have hs : suf <+: suf ++ B := List.prefix_append _ _
    rcases List.prefix_or_prefix_of_prefix hp hs with h1 | h2
    · exact hmem (h1.subset (by decide : '📝' ∈ txt "## 📝 Todo"))
    · have hnl : '\n' ∈ suf := getLast?_mem_text hlast
      exact absurd (h2.subset hnl) (by decide)

theorem findTodoRegion_append_skip : ∀ (A B : Text),
    (∀ suf, suf <:+ A → suf ≠ [] → (txt "## 📝 Todo").isPrefixOf (suf ++ B) = false) →
    findTodoRegion (A ++ B) = findTodoRegion B := by
  intro A
  induction A with
  | nil => intro B _; rfl
  | cons a rest ih =>
    intro B h
    rw [List.cons_append, findTodoRegion_cons]
    rw [if_neg (by
      have := h (a :: rest) (List.suffix_refl _) (by simp)
      rw [List.cons_append] at this
      rw [this]
      simp)]
    exact ih B (fun suf hsuf hne => h suf (hsuf.trans (List.suffix_cons a rest)) hne)

theorem findTodoRegion_header (S : Text) :
    findTodoRegion (txt "## 📝 Todo\n\n</div>\n\n" ++ S) =
      some (captureUntil (txt "\n\n<div align=\"center\">") (txt "</div>\n\n" ++ S)) := rfl

/-- Extending a line by a newline and more text cannot create a prefix match
for a newline-free pattern that did not already match. -/
theorem isPrefixOf_line_ext : ∀ (stop2 l t : Text),
    '\n' ∉ stop2 → stop2.isPrefixOf l = false → stop2.isPrefixOf (l ++ '\n' :: t) = false := by
  intro stop2
  induction stop2 with
  | nil =>
    intro l t _ hf
    simp [List.isPrefixOf] at hf
  | cons c ss ih =>
    intro l t hmem hf
    cases l with
    | nil =>
      exact isPrefixOf_cons_of_ne_head (fun h => hmem (h ▸ List.mem_cons_self _ _))
    | cons a l2 =>
      rw [show ((a :: l2) ++ '\n' :: t) = a :: (l2 ++ '\n' :: t) from rfl]
      by_cases hca : c = a
      · subst hca
        rw [show ((c :: ss : Text).isPrefixOf (c :: (l2 ++ '\n' :: t))) =
          ss.isPrefixOf (l2 ++ '\n' :: t) from by simp [List.isPrefixOf]]
        rw [show ((c :: ss : Text).isPrefixOf (c :: l2)) = ss.isPrefixOf l2 from by
          simp [List.isPrefixOf]] at hf
        exact ih l2 t (fun hm => hmem (List.mem_cons_of_mem _ hm)) hf
      · exact isPrefixOf_cons_of_ne_head (fun h => hca h.symm)

/-- The stop pattern `"\n\n" ++ stop2` never occurs in a newline-join of
newline-free lines none of which starts with `stop2`. -/
theorem containsSub_stop_join : ∀ (lines : List Text) (stop2 : Text),
    stop2 ≠ [] → '\n' ∉ stop2 →
    (∀ l ∈ lines, '\n' ∉ l) → (∀ l ∈ lines, stop2.isPrefixOf l = false) →
    containsSub ('\n' :: '\n' :: stop2) (pyJoin ['\n'] lines) = false ∧
    ('\n' :: stop2 : Text).isPrefixOf (pyJoin ['\n'] lines) = false ∧
    stop2.isPrefixOf (pyJoin ['\n'] lines) = false := by
  intro lines
  induction lines with
  | nil =>
    intro stop2 hne hnl _ _
    refine ⟨?_, ?_, ?_⟩
    · exact containsSub_nil_of_ne (by simp)
    · rfl
    · cases stop2 with
      | nil => exact absurd rfl hne
      | cons c ss => rfl
  | cons l rest ih =>
    intro stop2 hne hnl hlines hpref
    have hlnl : '\n' ∉ l := hlines l (List.mem_cons_self _ _)
    have hstophead : ∀ ch, stop2.head? = some ch → ch ≠ '\n' := by
      intro ch hch hc
      subst hc
      cases stop2 with
      | nil => cases hch
      | cons c ss =>
        have : c = '\n' := by simpa using hch
        exact hnl (this ▸ List.mem_cons_self _ _)
    cases hr : rest with
    | nil =>
      subst hr
      rw [show pyJoin ['\n'] [l] = l from rfl]
      refine ⟨?_, ?_, hpref l (List.mem_cons_self _ _)⟩
      · exact containsSub_false_of_head_not_mem rfl hlnl
      · cases l with
        | nil => rfl
        | cons a l2 =>
          exact isPrefixOf_cons_of_ne_head
            (fun h => hlnl (h ▸ List.mem_cons_self _ _))
    | cons r rs =>
      subst hr
      obtain ⟨ihc, ihp1, ihp2⟩ := ih stop2 hne hnl
        (fun x hx => hlines x (List.mem_cons_of_mem _ hx))
        (fun x hx => hpref x (List.mem_cons_of_mem _ hx))
      rw [pyJoin_cons_cons, List.append_assoc, List.singleton_append]
      have hjc : containsSub ('\n' :: '\n' :: stop2)
          ('\n' :: pyJoin ['\n'] (r :: rs)) = false := by
        rw [containsSub_cons]
        rw [show (('\n' :: '\n' :: stop2 : Text).isPrefixOf
          ('\n' :: pyJoin ['\n'] (r :: rs))) =
          (('\n' :: stop2 : Text).isPrefixOf (pyJoin ['\n'] (r :: rs))) from by
            simp [List.isPrefixOf]]
        rw [ihp1, ihc]
        rfl
      refine ⟨?_, ?_, ?_⟩
      · exact containsSub_append_of_not_mem rfl hlnl hjc
      · cases hl : l with
        | nil =>
          rw [List.nil_append]
          rw [show (('\n' :: stop2 : Text).isPrefixOf
            ('\n' :: pyJoin ['\n'] (r :: rs))) =
            (stop2.isPrefixOf (pyJoin ['\n'] (r :: rs))) from by simp [List.isPrefixOf]]
          exact ihp2
        | cons a l2 =>
          subst hl
          rw [List.cons_append]
          exact isPrefixOf_cons_of_ne_head
            (fun h => hlnl (h ▸ List.mem_cons_self _ _))
      · cases hl : l with
        | nil =>
          rw [List.nil_append]
          cases stop2 with
          | nil => exact absurd rfl hne
          | cons c ss =>
            exact isPrefixOf_cons_of_ne_head
              (fun h => hstophead c rfl h.symm)
        | cons a l2 =>
          subst hl
          exact isPrefixOf_line_ext stop2 (a :: l2) _ hnl (hpref _ (List.mem_cons_self _ _))

theorem join_div_lines (L : List Text) (hL : L ≠ []) :
    pyJoin ['\n'] (txt "</div>" :: ([] : Text) :: L) =
      txt "</div>\n\n" ++ pyJoin ['\n'] L := by
  cases L with
  | nil => exact absurd rfl hL
  | cons x xs =>
    rw [pyJoin_cons_cons, pyJoin_cons_cons]
    rw [show txt "</div>\n\n" = txt "</div>" ++ ['\n'] ++ ([] ++ ['\n']) from by decide]
    simp [List.append_assoc]

/-! ### The serializer-to-parser round trip -/

/-- The serialized todo section of a well-formed grouped ledger, viewed as
its newline-joined line list. -/
theorem create_todo_section_lines (G : Grouped)
    (hne : G ≠ [])
    (hwf : ∀ g ∈ G, wfGroup g)
    (hnd : (G.map (fun g => pyLower g.1)).Nodup)
    (hgen0 : ∀ g ∈ G, pyLower g.1 = txt "general" → g.1 = txt "General")
    (hgen1 : ∀ g ∈ G.drop 1, pyLower g.1 ≠ txt "general") :
    create_todo_section (flattenGrouped G) =
      pyJoin ['\n'] (interBlocks (G.map blockLines)) := by
  rw [create_todo_section_flatten G hne hwf hnd hgen0 hgen1]
  rw [show G.map (fun g => renderCatSection g.1 g.2) =
      (G.map blockLines).map (pyJoin ['\n']) from by
    rw [List.map_map]
    apply List.map_congr_left
    intro g hg
    exact renderCatSection_eq_join g ((hwf g hg).2.2.2.2.2.1)]
  exact pyJoin_blocks (G.map blockLines) (by
    intro b hb
    obtain ⟨g, _, rfl⟩ := List.mem_map.mp hb
    simp [blockLines])

/-- The serialized todo section ends with the literal `</details>`. -/
theorem create_todo_section_concat (G : Grouped)
    (hne : G ≠ [])
    (hwf : ∀ g ∈ G, wfGroup g)
    (hnd : (G.map (fun g => pyLower g.1)).Nodup)
    (hgen0 : ∀ g ∈ G, pyLower g.1 = txt "general" → g.1 = txt "General")
    (hgen1 : ∀ g ∈ G.drop 1, pyLower g.1 ≠ txt "general") :
    ∃ pre, create_todo_section (flattenGrouped G) = pre ++ txt "</details>" := by
  rw [create_todo_section_flatten G hne hwf hnd hgen0 hgen1]
  rcases List.eq_nil_or_concat G with rfl | ⟨G0, glast, rfl⟩
  · exact absurd rfl hne
  · rw [List.concat_eq_append, List.map_append]
    obtain ⟨pre, hpre⟩ := pyJoin_concat (txt "\n\n")
      (G0.map (fun g => renderCatSection g.1 g.2)) (renderCatSection glast.1 glast.2)
    obtain ⟨pre2, hpre2⟩ := renderCatSection_concat glast.1 glast.2
    refine ⟨pre ++ pre2, ?_⟩
    simp only [List.map_singleton]
    rw [hpre, hpre2, List.append_assoc]

/-- Round trip of the report codec on the todo ledger: serializing a
well-formed grouped ledger into a full issue body and parsing it back
recovers every item with its checked state and order, and every category
marker with the completion-count suffix still attached (`decorateGrouped`). -/
theorem roundtrip_flattened (title : Text) (branches : List (Text × Text)) (G : Grouped)
    (hne : G ≠ [])
    (hwf : ∀ g ∈ G, wfGroup g)
    (hnd : (G.map (fun g => pyLower g.1)).Nodup)
    (hgen0 : ∀ g ∈ G, pyLower g.1 = txt "general" → g.1 = txt "General")
    (hgen1 : ∀ g ∈ G.drop 1, pyLower g.1 ≠ txt "general")
    (htitle : '📝' ∉ title)
    (hbr : ∀ b ∈ branches, '📝' ∉ b.1 ∧ '📝' ∉ b.2) :
    ∃ pr, parse_existing_issue (updated_body title branches (flattenGrouped G)) = some pr ∧
      pr.todos = decorateGrouped G := by
  have hS := create_todo_section_lines G hne hwf hnd hgen0 hgen1
  have hSconc := create_todo_section_concat G hne hwf hnd hgen0 hgen1
  have hmapne : G.map blockLines ≠ [] := by
    cases G with
    | nil => exact absurd rfl hne
    | cons g rest => simp
  have hibne : interBlocks (G.map blockLines) ≠ [] := by
    apply interBlocks_ne_nil hmapne
    intro b hb
    obtain ⟨g, _, rfl⟩ := List.mem_map.mp hb
    simp [blockLines]
  -- line facts
  have hlinesnl : ∀ l ∈ (txt "</div>" :: ([] : Text) ::
      interBlocks (G.map blockLines)), '\n' ∉ l := by
    intro l hl
    rcases List.mem_cons.mp hl with rfl | hl2
    · decide
    rcases List.mem_cons.mp hl2 with rfl | hl3
    · intro hm; cases hm
    rcases mem_interBlocks hl3 with rfl | ⟨b, hb, hlb⟩
    · intro hm; cases hm
    · obtain ⟨g, hg, rfl⟩ := List.mem_map.mp hb
      exact blockLines_no_newline g (hwf g hg) l hlb
  have hlinespref : ∀ l ∈ (txt "</div>" :: ([] : Text) ::
      interBlocks (G.map blockLines)),
      (txt "<div align=\"center\">").isPrefixOf l = false := by
    intro l hl
    rcases List.mem_cons.mp hl with rfl | hl2
    · decide
    rcases List.mem_cons.mp hl2 with rfl | hl3
    · decide
    rcases mem_interBlocks hl3 with rfl | ⟨b, hb, hlb⟩
    · decide
    · obtain ⟨g, hg, rfl⟩ := List.mem_map.mp hb
      exact blockLines_stop_not_prefix g (hwf g hg) l hlb
  -- the captured region is the entire remainder
  have hregion_join : txt "</div>\n\n" ++ create_todo_section (flattenGrouped G) =
      pyJoin ['\n'] (txt "</div>" :: ([] : Text) :: interBlocks (G.map blockLines)) := by
    rw [hS, join_div_lines _ hibne]
  have hstop : containsSub (txt "\n\n<div align=\"center\">")
      (txt "</div>\n\n" ++ create_todo_section (flattenGrouped G)) = false := by
    rw [show txt "\n\n<div align=\"center\">" =
      '\n' :: '\n' :: txt "<div align=\"center\">" from by decide]
    rw [hregion_join]
    exact (containsSub_stop_join _ (txt "<div align=\"center\">") (by decide) (by decide)
      hlinesnl hlinespref).1
  have hregionlast : (txt "</div>\n\n" ++
      create_todo_section (flattenGrouped G)).getLast? = some '>' := by
    obtain ⟨preS, hpreS⟩ := hSconc
    rw [hpreS, ← List.append_assoc]
    rw [List.getLast?_append_of_ne_nil _ (by decide : txt "</details>" ≠ [])]
    decide
  have hcap : captureUntil (txt "\n\n<div align=\"center\">")
      (txt "</div>\n\n" ++ create_todo_section (flattenGrouped G)) =
      txt "</div>\n\n" ++ create_todo_section (flattenGrouped G) :=
    captureUntil_all hstop (by rw [hregionlast]; simp)
  -- decompose the body
  have hbody : updated_body title branches (flattenGrouped G) =
      (txt "# " ++ title ++
        txt "\n\n<div align=\"center\">\n\n## 📊 Branch Summary\n\n</div>\n\n" ++
        pyJoin [] (branches.map (fun p =>
          txt "<details>\n<summary><h3 style=\"display: inline;\">✨ " ++ p.1 ++
          txt "</h3></summary>\n\n" ++ p.2 ++ txt "\n</details>")) ++
        txt "\n\n<div align=\"center\">\n\n") ++
      (txt "## 📝 Todo\n\n</div>\n\n" ++ create_todo_section (flattenGrouped G)) := by
    unfold updated_body
    rw [show txt "\n\n<div align=\"center\">\n\n## 📝 Todo\n\n</div>\n\n" =
      txt "\n\n<div align=\"center\">\n\n" ++ txt "## 📝 Todo\n\n</div>\n\n" from by decide]
    simp [List.append_assoc]
  have hAfp : '📝' ∉ (txt "# " ++ title ++
      txt "\n\n<div align=\"center\">\n\n## 📊 Branch Summary\n\n</div>\n\n" ++
      pyJoin [] (branches.map (fun p =>
        txt "<details>\n<summary><h3 style=\"display: inline;\">✨ " ++ p.1 ++
        txt "</h3></summary>\n\n" ++ p.2 ++ txt "\n</details>")) ++
      txt "\n\n<div align=\"center\">\n\n") := by
    intro hm
    simp only [List.mem_append] at hm
    rcases hm with (((h1 | h2) | h3) | h4) | h5
    · revert h1; decide
    · exact htitle h2
    · revert h3; decide
    · refine not_mem_pyJoin_nil ?_ h4
      intro x hx
      obtain ⟨b, hb, rfl⟩ := List.mem_map.mp hx
      intro hm2
      simp only [List.mem_append] at hm2
      rcases hm2 with (((hq1 | hq2) | hq3) | hq4) | hq5
      · revert hq1; decide
      · exact (hbr b hb).1 hq2
      · revert hq3; decide
      · exact (hbr b hb).2 hq4
      · revert hq5; decide
    · revert h5; decide
  have hAlast : (txt "# " ++ title ++
      txt "\n\n<div align=\"center\">\n\n## 📊 Branch Summary\n\n</div>\n\n" ++
      pyJoin [] (branches.map (fun p =>
        txt "<details>\n<summary><h3 style=\"display: inline;\">✨ " ++ p.1 ++
        txt "</h3></summary>\n\n" ++ p.2 ++ txt "\n</details>")) ++
      txt "\n\n<div align=\"center\">\n\n").getLast? = some '\n' := by
    rw [List.getLast?_append_of_ne_nil _
      (by decide : txt "\n\n<div align=\"center\">\n\n" ≠ [])]
    decide
  have hfind : findTodoRegion (updated_body title branches (flattenGrouped G)) =
      some (txt "</div>\n\n" ++ create_todo_section (flattenGrouped G)) := by
    rw [hbody]
    rw [findTodoRegion_append_skip _ _ (by
      intro suf hsuf hne2
      obtain ⟨pre, hpre⟩ := hsuf
      apply header_prefix_false
      · rw [← hAlast, ← hpre, List.getLast?_append_of_ne_nil _ hne2]
      · exact fun hm => hAfp (hpre ▸ List.mem_append.mpr (Or.inr hm)))]
    rw [findTodoRegion_header, hcap]
  -- the captured region strips to itself and splits into the line list
  have hsecstrip : pyStrip (txt "</div>\n\n" ++ create_todo_section (flattenGrouped G)) =
      txt "</div>\n\n" ++ create_todo_section (flattenGrouped G) := by
    apply pyStrip_eq_self_of_ends
    · intro ch hch
      rw [show (txt "</div>\n\n" ++
        create_todo_section (flattenGrouped G)).head? = some '<' from rfl] at hch
      cases hch
      decide
    · intro ch hch
      rw [hregionlast] at hch
      cases hch
      decide
  have hsplitlines : pySplitChar '\n'
      (txt "</div>\n\n" ++ create_todo_section (flattenGrouped G)) =
      txt "</div>" :: ([] : Text) :: interBlocks (G.map blockLines) := by
    rw [hregion_join]
    exact pySplitChar_pyJoin (by simp) hlinesnl
  refine ⟨⟨(parseBranchBlocks (updated_body title branches (flattenGrouped G))).foldl
    (fun d p => dictInsert d p.1 p.2) [], decorateGrouped G⟩, ?_, rfl⟩
  unfold parse_existing_issue
  rw [hfind]
  dsimp only
  rw [hsecstrip]
  rw [if_neg (by
    rw [show ((txt "</div>\n\n" ++ create_todo_section (flattenGrouped G)) == ([] : Text)) =
      false from rfl]
    simp)]
  rw [hsplitlines]
  rw [parseTodoLines_skip_ediv, parseTodoLines_skip_empty]
  rw [parseTodoLines_interBlocks G _ hwf]
  rfl

/-! ### `parse_commit_message` on a plain `[tag] title` message -/

theorem splitsAsc_cons (c : Char) (rest : Text) :
    splitsAsc (c :: rest) =
      ([], c :: rest) :: (splitsAsc rest).map (fun p => (c :: p.1, p.2)) := rfl

theorem findSome?_comp_map {α β : Type} (h : α → β) :
    ∀ (l : List (Text × Text)) (F : Text × Text → Option α),
    List.findSome? (fun p => (F p).map h) l = (List.findSome? F l).map h := by
  intro l
  induction l with
  | nil => intro F; rfl
  | cons a as ih =>
    intro F
    rw [List.findSome?_cons, List.findSome?_cons]
    cases hF : F a with
    | none => simp only [Option.map_none']; exact ih F
    | some b => simp only [Option.map_some']

theorem matchSecHdr_none_of_no_newline (kw : Text) {s : Text} (hnl : '\n' ∉ s) :
    matchSecHdr kw s = none := by
  unfold matchSecHdr
  rw [if_neg (by
    rw [show (s.takeWhile isPySpace).contains '\n' = false from by
      cases hc : (s.takeWhile isPySpace).contains '\n'
      · rfl
      · exfalso
        have hm : '\n' ∈ s.takeWhile isPySpace := by simpa using hc
        exact hnl ((List.takeWhile_sublist _).subset hm)]
    simp)]

theorem pcmFooter_nonempty_nonl {s : Text} (hne : s ≠ []) (hnl : '\n' ∉ s) :
    pcmFooter s = none := by
  unfold pcmFooter
  rw [matchSecHdr_none_of_no_newline _ hnl]
  rw [if_neg (by
    unfold matchEnd
    rw [show (s == ([] : Text)) = false from by simp [hne]]
    rw [show (s == ['\n']) = false from by
      simp only [beq_eq_false_iff_ne, ne_eq]
      intro hc
      exact hnl (hc ▸ List.mem_cons_self _ _)]
    simp)]

theorem pcmTodo_nonempty_nonl {s : Text} (hne : s ≠ []) (hnl : '\n' ∉ s) :
    pcmTodo s = none := by
  unfold pcmTodo
  rw [matchSecHdr_none_of_no_newline _ hnl, pcmFooter_nonempty_nonl hne hnl]
  rfl

theorem pcmBody_nonempty_nonl {s : Text} (hne : s ≠ []) (hnl : '\n' ∉ s) :
    pcmBody s = none := by
  unfold pcmBody
  rw [matchSecHdr_none_of_no_newline _ hnl, pcmTodo_nonempty_nonl hne hnl]
  rfl

theorem pcmTail_cons {c : Char} {rest : Text} (h : pcmBody (c :: rest) = none) :
    pcmTail (c :: rest) = (pcmTail rest).map (fun q => (c :: q.1, q.2)) := by
  conv_lhs => rw [pcmTail]
  rw [show (pcmBody (c :: rest)).map
    (fun bs => (([] : Text), bs)) = none from by rw [h]; rfl]

theorem pcmTail_nonl : ∀ (title : Text), '\n' ∉ title →
    pcmTail title = some (title, none, none, none) := by
  intro title
  induction title with
  | nil => intro _; rfl
  | cons c rest ih =>
    intro hnl
    rw [pcmTail_cons (pcmBody_nonempty_nonl (by simp) hnl)]
    rw [ih (fun hm => hnl (List.mem_cons_of_mem _ hm))]
    rfl

theorem pcmAt_cons {c : Char} {rest : Text} (hc : c ≠ ']') :
    pcmAt (c :: rest) = (pcmAt rest).map (fun g => (c :: g.1, g.2)) := by
  conv_lhs => rw [pcmAt]
  rw [show (if (txt "] ").isPrefixOf (c :: rest) then
      (pcmTail ((c :: rest).drop 2)).map (fun t => (([] : Text), t))
    else none) = none from by
    rw [if_neg (by
      rw [show (txt "] ").isPrefixOf (c :: rest) = false from
        isPrefixOf_cons_of_ne_head hc]
      simp)]]

theorem pcmAt_append : ∀ (tag : Text), ']' ∉ tag → ∀ (title : Text), '\n' ∉ title →
    pcmAt (tag ++ (txt "] " ++ title)) = some (tag, title, none, none, none) := by
  intro tag
  induction tag with
  | nil =>
    intro _ title htitle
    rw [List.nil_append]
    rw [show txt "] " ++ title = ']' :: (' ' :: title) from rfl]
    conv_lhs => rw [pcmAt]
    rw [show (if (txt "] ").isPrefixOf (']' :: (' ' :: title)) then
        (pcmTail ((']' :: (' ' :: title)).drop 2)).map (fun t => (([] : Text), t))
      else none) =
      (pcmTail title).map (fun t => (([] : Text), t)) from by
      rw [if_pos (by rw [show (']' :: (' ' :: title) : Text) = txt "] " ++ title from rfl,
        isPrefixOf_append_self])]
      rfl]
    rw [pcmTail_nonl title htitle]
    rfl
  | cons c ctail ih =>
    intro hmem title htitle
    rw [List.cons_append]
    rw [pcmAt_cons (fun h => hmem (h ▸ List.mem_cons_self _ _))]
    rw [ih (fun hm => hmem (List.mem_cons_of_mem _ hm)) title htitle]
    rfl

/-- A plain `[tag] title` one-line message parses with group 1 = tag and
group 2 = title; the classification label falls back to `other` for
unknown type keys via `COMMIT_TYPES.get` (line 31). -/
theorem parse_commit_message_flat (tag title : Text)
    (htag : ']' ∉ tag) (htitle : '\n' ∉ title) :
    parse_commit_message ('[' :: (tag ++ (txt "] " ++ title))) =
      some ⟨pyLower tag, (catLookup COMMIT_TYPES (pyLower tag)).getD (txt "other"),
        title, none, none, none⟩ := by
  unfold parse_commit_message
  rw [show pcmScan ('[' :: (tag ++ (txt "] " ++ title))) =
      pcmAt (tag ++ (txt "] " ++ title)) from by
    unfold pcmScan
    rw [if_pos (by rfl)]
    rw [pcmAt_append tag htag title htitle]]
  rw [pcmAt_append tag htag title htitle]
  rfl

/-! ### The commit filter, the merge dedup, the rotation and the trace -/

theorem commitFilterAux_cons (children : Text → List Text)
    (branches : List (Text × Text)) (fuel : Nat) (c : Text) (rest seen : List Text) :
    commitFilterAux children branches (fuel + 1) (c :: rest) seen =
      (if is_merge_commit_message (pyStrip c) then
        commitFilterAux children branches fuel (rest ++ children c) seen
      else if !(seen.contains (pyStrip c)) &&
          !(is_commit_already_logged (pyStrip c) branches) then
        c :: commitFilterAux children branches fuel rest (pyStrip c :: seen)
      else commitFilterAux children branches fuel rest seen) := rfl

/-- No message surviving the filter is a merge-commit message. -/
theorem commitFilterAux_no_merge (children : Text → List Text)
    (branches : List (Text × Text)) : ∀ (fuel : Nat) (queue seen : List Text),
    ∀ m ∈ commitFilterAux children branches fuel queue seen,
    is_merge_commit_message (pyStrip m) = false := by
  intro fuel
  induction fuel with
  | zero => intro queue seen m hm; cases hm
  | succ fuel ih =>
    intro queue seen m hm
    cases queue with
    | nil => cases hm
    | cons c rest =>
      rw [commitFilterAux_cons] at hm
      by_cases hmerge : is_merge_commit_message (pyStrip c) = true
      · rw [if_pos hmerge] at hm
        exact ih _ _ m hm
      · rw [if_neg hmerge] at hm
        by_cases hfresh : (!(seen.contains (pyStrip c)) &&
            !(is_commit_already_logged (pyStrip c) branches)) = true
        · rw [if_pos hfresh] at hm
          rcases List.mem_cons.mp hm with rfl | hm2
          · simpa using hmerge
          · exact ih _ _ m hm2
        · rw [if_neg hfresh] at hm
          exact ih _ _ m hm

theorem dedupGo_cons (m : Text) (rest seen : List Text) :
    dedupGo (m :: rest) seen =
      (if seen.contains (pyStrip m) then dedupGo rest seen
       else m :: dedupGo rest (pyStrip m :: seen)) := rfl

/-- The dedup pass keeps each stripped message exactly once: the output keys
are duplicate-free and are exactly the input keys outside `seen`. -/
theorem dedupGo_spec : ∀ (l seen : List Text),
    ((dedupGo l seen).map pyStrip).Nodup ∧
    (∀ m, m ∈ (dedupGo l seen).map pyStrip ↔ (m ∈ l.map pyStrip ∧ m ∉ seen)) := by
  intro l
  induction l with
  | nil =>
    intro seen
    refine ⟨?_, ?_⟩
    · rw [show dedupGo [] seen = [] from rfl]
      exact List.nodup_nil
    · intro m
      rw [show dedupGo [] seen = [] from rfl]
      simp
  | cons m0 rest ih =>
    intro seen
    rw [dedupGo_cons]
    by_cases hs : seen.contains (pyStrip m0) = true
    · rw [if_pos hs]
      obtain ⟨h1, h2⟩ := ih seen
      refine ⟨h1, ?_⟩
      intro m
      rw [h2 m, List.map_cons]
      constructor
      · rintro ⟨hm, hns⟩
        exact ⟨List.mem_cons_of_mem _ hm, hns⟩
      · rintro ⟨hm, hns⟩
        rcases List.mem_cons.mp hm with rfl | hm2
        · exact absurd (contains_eq_mem.mp hs) hns
        · exact ⟨hm2, hns⟩
    · rw [if_neg hs]
      have hs2 : pyStrip m0 ∉ seen :=
        contains_eq_false.mp (by cases hx : seen.contains (pyStrip m0) <;> simp_all)
      obtain ⟨h1, h2⟩ := ih (pyStrip m0 :: seen)
      constructor
      · rw [List.map_cons]
        refine List.nodup_cons.mpr ⟨?_, h1⟩
        intro hmem
        exact ((h2 (pyStrip m0)).mp hmem).2 (List.mem_cons_self _ _)
      · intro m
        rw [List.map_cons, List.map_cons]
        constructor
        · intro hm
          rcases List.mem_cons.mp hm with rfl | hm2
          · exact ⟨List.mem_cons_self _ _, hs2⟩
          · obtain ⟨hmm, hns⟩ := (h2 m).mp hm2
            exact ⟨List.mem_cons_of_mem _ hmm,
              fun hseen => hns (List.mem_cons_of_mem _ hseen)⟩
        · rintro ⟨hm, hns⟩
          rcases List.mem_cons.mp hm with rfl | hm2
          · exact List.mem_cons_self _ _
          · by_cases hcase : m = pyStrip m0
            · subst hcase
              exact List.mem_cons_self _ _
            · refine List.mem_cons_of_mem _ ((h2 m).mpr ⟨hm2, ?_⟩)
              intro hx
              rcases List.mem_cons.mp hx with h | h
              · exact hcase h
              · exact hns h

theorem processPreviousIssues_cons (i : Issue) (rest : List Issue) (today : Option Nat) :
    processPreviousIssues (i :: rest) today =
      (if isTodayIssue today i.number || !(is_daily_log_issue i.title) then
        processPreviousIssues rest today
      else
        (uncheckedTodosOf i.body ++ (processPreviousIssues rest today).1,
          i.number :: (processPreviousIssues rest today).2)) := rfl

/-- The rotation carries the unchecked todos of every matching previous
issue, in iteration order, and closes every matching previous issue. -/
theorem processPreviousIssues_spec : ∀ (issues : List Issue) (today : Option Nat),
    processPreviousIssues issues today =
      ((issues.filter (fun i =>
          !(isTodayIssue today i.number || !(is_daily_log_issue i.title)))).flatMap
        (fun i => uncheckedTodosOf i.body),
       (issues.filter (fun i =>
          !(isTodayIssue today i.number ||
            !(is_daily_log_issue i.title)))).map Issue.number) := by
  intro issues today
  induction issues with
  | nil => rfl
  | cons i rest ih =>
    rw [processPreviousIssues_cons]
    cases hcond : (isTodayIssue today i.number || !(is_daily_log_issue i.title)) with
    | true =>
      rw [if_pos rfl, ih, List.filter_cons_of_neg (by simp [hcond])]
    | false =>
      rw [if_neg (by simp), ih, List.filter_cons_of_pos (by simp [hcond])]
      rw [List.flatMap_cons, List.map_cons]

theorem count_editBody_flatMap (todayNum : Nat) : ∀ (commitRefs : List (List Nat)),
    (commitRefs.flatMap (commitEffects todayNum)).count (Effect.editBody todayNum) =
      commitRefs.length := by
  intro commitRefs
  induction commitRefs with
  | nil => rfl
  | cons r rs ih =>
    rw [List.flatMap_cons, List.count_append, ih]
    rw [show (commitEffects todayNum r).count (Effect.editBody todayNum) = 1 from by
      unfold commitEffects
      rw [List.count_append]
      rw [List.count_eq_zero.mpr (by
        intro hm
        obtain ⟨k, _, hk⟩ := List.mem_map.mp hm
        cases hk)]
      simp]
    simp [Nat.add_comm]

/-! ## The claims -/

/-- C1: round trip of the report codec.  Serializing a well-formed grouped
ledger into a full issue body with `updated_body`/`create_todo_section` and
parsing it back with `parse_existing_issue` succeeds and recovers every item
with its checked state and order; each category marker comes back as the
serialized display name with the completion-count suffix still attached
(`decorateGrouped`), not stripped. -/
theorem claim_C1 (title : Text) (branches : List (Text × Text)) (G : Grouped)
    (hne : G ≠ [])
    (hwf : ∀ g ∈ G, wfGroup g)
    (hnd : (G.map (fun g => pyLower g.1)).Nodup)
    (hgen0 : ∀ g ∈ G, pyLower g.1 = txt "general" → g.1 = txt "General")
    (hgen1 : ∀ g ∈ G.drop 1, pyLower g.1 ≠ txt "general")
    (htitle : '📝' ∉ title)
    (hbr : ∀ b ∈ branches, '📝' ∉ b.1 ∧ '📝' ∉ b.2) :
    ∃ pr, parse_existing_issue (updated_body title branches (flattenGrouped G)) = some pr ∧
      pr.todos = decorateGrouped G :=
  roundtrip_flattened title branches G hne hwf hnd hgen0 hgen1 htitle hbr

/-- C1, counterexample to the original claim: the parsed ledger is not the
serialized one, because the recovered category marker keeps the trailing
completion-count suffix (`@Security (0/1)` instead of `@Security`). -/
theorem claim_C1_counterexample :
    ¬ ((parse_existing_issue (updated_body (txt "T") []
        (flattenGrouped [(txt "Security", [(false, txt "add 2FA")])]))).map
      ParsedIssue.todos =
      some (flattenGrouped [(txt "Security", [(false, txt "add 2FA")])])) := by
  decide

/-- C1, witness: the round trip at a concrete one-category document. -/
theorem claim_C1_witness :
    (([(txt "Security", [(false, txt "add 2FA")])] : Grouped) ≠ [] ∧
     (∀ g ∈ ([(txt "Security", [(false, txt "add 2FA")])] : Grouped), wfGroup g) ∧
     (([(txt "Security", [(false, txt "add 2FA")])] : Grouped).map
        (fun g => pyLower g.1)).Nodup ∧
     '📝' ∉ txt "T") ∧
    ∃ pr, parse_existing_issue (updated_body (txt "T") [(txt "Main", txt "commit text")]
        (flattenGrouped [(txt "Security", [(false, txt "add 2FA")])])) = some pr ∧
      pr.todos = decorateGrouped [(txt "Security", [(false, txt "add 2FA")])] :=
  ⟨⟨by decide, by decide, by decide, by decide⟩,
    claim_C1 (txt "T") [(txt "Main", txt "commit text")]
      [(txt "Security", [(false, txt "add 2FA")])]
      (by decide) (by decide) (by decide) (by decide) (by decide) (by decide) (by decide)⟩

/-- C2: monotonic completion fails.  Merging an existing ledger holding
unchecked `a` with an incoming checked `a` leaves an entry for the same
identity with `checked = false` in the result (the stale `todo_map` index
after the `@General` insertion makes pass 2 overwrite the wrong slot). -/
theorem claim_C2 :
    merge_todos [(false, txt "a")] [(true, txt "a")] =
      [(true, txt "a"), (false, txt "a")] ∧
    ∃ e ∈ merge_todos [(false, txt "a")] [(true, txt "a")],
      e.1 = false ∧ e.2 = txt "a" := by
  decide

/-- C3: the rotation carries forward the unchecked todos of every previous
daily-log issue (in iteration order), not only the most recently created
one, and closes every such issue. -/
theorem claim_C3 : ∀ (issues : List Issue) (today : Option Nat),
    processPreviousIssues issues today =
      ((issues.filter (fun i =>
          !(isTodayIssue today i.number || !(is_daily_log_issue i.title)))).flatMap
        (fun i => uncheckedTodosOf i.body),
       (issues.filter (fun i =>
          !(isTodayIssue today i.number ||
            !(is_daily_log_issue i.title)))).map Issue.number) :=
  processPreviousIssues_spec

/-- C3, counterexample to the original claim: with two open previous
records (the second created later), the carried todos are not just the most
recent record's unchecked items — the older record contributes too. -/
theorem claim_C3_counterexample :
    ¬ ((processPreviousIssues
        [⟨1, txt "📅 Daily Development Log (2024-01-01)",
            txt "## 📝 Todo\n\n- [ ] taskA", 5⟩,
         ⟨2, txt "📅 Daily Development Log (2024-01-02)",
            txt "## 📝 Todo\n\n- [ ] taskB", 9⟩] none).1 =
      uncheckedTodosOf (txt "## 📝 Todo\n\n- [ ] taskB")) := by
  decide

/-- C4: idempotent merge on well-formed ledgers: when a ledger holds at
least one category marker, its markers are unchecked with trimmed pairwise
case-insensitively distinct names and its item texts are pairwise distinct,
re-merging its own contents changes nothing. -/
theorem claim_C4 (L : List Entry)
    (hany : L.any (fun e => isMarkerE e) = true)
    (htrim : ∀ e ∈ L, isMarkerE e = true → e.1 = false ∧ pyStrip (e.2.drop 1) = e.2.drop 1)
    (hnd : (markerLowersOf L).Nodup)
    (hitnd : (itemTextsOf L).Nodup) :
    merge_todos L L = L :=
  merge_todos_self L hany htrim hnd hitnd

/-- C4, counterexample to the original claim (`merge(L, itemsOf(L)) == L`
for any ledger): on the empty ledger the merge synthesizes a fresh
`@General` marker. -/
theorem claim_C4_counterexample : ¬ (merge_todos [] [] = []) := by decide

/-- C4, witness: idempotence at a concrete marker-plus-item ledger. -/
theorem claim_C4_witness :
    (([(false, txt "@General"), (false, txt "x")] : List Entry).any
        (fun e => isMarkerE e) = true) ∧
    merge_todos [(false, txt "@General"), (false, txt "x")]
      [(false, txt "@General"), (false, txt "x")] =
      [(false, txt "@General"), (false, txt "x")] :=
  ⟨by decide,
    claim_C4 [(false, txt "@General"), (false, txt "x")]
      (by decide) (by decide) (by decide) (by decide)⟩

/-- C5: the merge identity is the exact task text alone, not the
`(category-key, text)` pair: an incoming duplicate text under a different
category is conflated with the existing entry (only the new category marker
survives), while a fresh text is appended under the new category. -/
theorem claim_C5 (a b t u : Text)
    (ha : pyStrip a = a) (hb : pyStrip b = b)
    (hab : pyLower a ≠ pyLower b)
    (ht : startsWithChar '@' t = false)
    (hu : startsWithChar '@' u = false) (htu : t ≠ u) :
    merge_todos [(false, '@' :: a), (false, t)] [(false, '@' :: b), (false, t)] =
      [(false, '@' :: a), (false, t), (false, '@' :: b)] ∧
    merge_todos [(false, '@' :: a), (false, t)] [(false, '@' :: b), (false, u)] =
      [(false, '@' :: a), (false, t), (false, '@' :: b), (false, u)] :=
  merge_todos_two_categories a b t u ha hb hab ht hu htu

/-- C5, counterexample to the original claim: the same text under two
different categories is not kept twice — after merging, only one `x` entry
remains. -/
theorem claim_C5_counterexample :
    ¬ ((merge_todos [(false, txt "@A"), (false, txt "x")]
        [(false, txt "@B"), (false, txt "x")]).filter (fun e => e.2 == txt "x") =
      [(false, txt "x"), (false, txt "x")]) := by
  decide

/-- C5, witness: the conflation and the fresh append at concrete
categories `A`, `B` and texts `x`, `y`. -/
theorem claim_C5_witness :
    (pyStrip (txt "A") = txt "A" ∧ pyLower (txt "A") ≠ pyLower (txt "B") ∧
      (txt "x" : Text) ≠ txt "y") ∧
    merge_todos [(false, '@' :: txt "A"), (false, txt "x")]
      [(false, '@' :: txt "B"), (false, txt "x")] =
      [(false, '@' :: txt "A"), (false, txt "x"), (false, '@' :: txt "B")] ∧
    merge_todos [(false, '@' :: txt "A"), (false, txt "x")]
      [(false, '@' :: txt "B"), (false, txt "y")] =
      [(false, '@' :: txt "A"), (false, txt "x"), (false, '@' :: txt "B"),
        (false, txt "y")] :=
  ⟨⟨by decide, by decide, by decide⟩,
    claim_C5 (txt "A") (txt "B") (txt "x") (txt "y")
      (by decide) (by decide) (by decide) (by decide) (by decide) (by decide)⟩

/-- C6: the write trace of a run is not a single final persist: it is the
rotation's close operations followed by the per-commit writes, with one
body write per processed commit; every close precedes every body write. -/
theorem claim_C6 : ∀ (issues : List Issue) (todayNum : Nat)
    (commitRefs : List (List Nat)),
    ∃ cs ws, mainEffects issues todayNum commitRefs = cs ++ ws ∧
      (∀ e ∈ cs, isCloseEffect e = true) ∧
      (∀ e ∈ ws, isCloseEffect e = false) ∧
      ws.count (Effect.editBody todayNum) = commitRefs.length := by
  intro issues todayNum commitRefs
  refine ⟨rotationEffects issues (some todayNum),
    commitRefs.flatMap (commitEffects todayNum), rfl, ?_, ?_,
    count_editBody_flatMap todayNum commitRefs⟩
  · intro e he
    obtain ⟨n, _, rfl⟩ := List.mem_map.mp he
    rfl
  · intro e he
    obtain ⟨r, _, hmem⟩ := List.mem_flatMap.mp he
    unfold commitEffects at hmem
    rcases List.mem_append.mp hmem with h1 | h2
    · obtain ⟨k, _, rfl⟩ := List.mem_map.mp h1
      rfl
    · rcases List.mem_cons.mp h2 with rfl | h3
      · rfl
      · cases h3

/-- C6, counterexample to the original claim: in a run with one previous
issue and two commits, a close operation happens strictly before the final
body write. -/
theorem claim_C6_counterexample :
    ¬ (∀ e ∈ (mainEffects
        [⟨1, txt "📅 Daily Development Log (2024-01-01)", [], 0⟩] 7
        [[], []]).dropLast, isCloseEffect e = false) := by
  decide

/-- C7: `parse_commit_message` accepts a `[tag] title` message whose tag is
not a recognized commit type and classifies it with the fallback label
`other` (via `COMMIT_TYPES.get`), rather than rejecting it. -/
theorem claim_C7 (tag title : Text)
    (htag : ']' ∉ tag) (htitle : '\n' ∉ title)
    (hunknown : catLookup COMMIT_TYPES (pyLower tag) = none) :
    parse_commit_message ('[' :: (tag ++ (txt "] " ++ title))) =
      some ⟨pyLower tag, txt "other", title, none, none, none⟩ := by
  rw [parse_commit_message_flat tag title htag htitle, hunknown]
  rfl

/-- C7, counterexample to the original claim: the GitHubAutomation
`CommitParser.parse` raises `ValueError` (modelled by `none`) on an
unknown type tag instead of falling back to `other`. -/
theorem claim_C7_counterexample :
    ¬ (GHAuto.CommitParser_parse (txt "[foo] bar")).isSome := by decide

/-- C7, witness: the fallback at the concrete unknown tag `custom`. -/
theorem claim_C7_witness :
    (']' ∉ txt "custom" ∧ catLookup COMMIT_TYPES (pyLower (txt "custom")) = none) ∧
    parse_commit_message ('[' :: (txt "custom" ++ (txt "] " ++ txt "do thing"))) =
      some ⟨pyLower (txt "custom"), txt "other", txt "do thing", none, none, none⟩ :=
  ⟨⟨by decide, by decide⟩,
    claim_C7 (txt "custom") (txt "do thing") (by decide) (by decide) (by decide)⟩

/-- C8: merge-commit rejection.  The commit filter of `main` never emits a
message whose stripped form begins with `Merge` (such commits are expanded
into their child lists instead), and the duplicate-removal pass of
`get_merge_commits` returns each distinct stripped message of the two
parent lists exactly once — their union. -/
theorem claim_C8 :
    (∀ (children : Text → List Text) (branches : List (Text × Text))
        (fuel : Nat) (queue seen : List Text),
      ∀ m ∈ commitFilterAux children branches fuel queue seen,
        is_merge_commit_message (pyStrip m) = false) ∧
    (∀ (commits1 commits2 : List Text),
      ((get_merge_commits_dedup commits1 commits2).map pyStrip).Nodup ∧
      (∀ m, m ∈ (get_merge_commits_dedup commits1 commits2).map pyStrip ↔
        m ∈ (commits1 ++ commits2).map pyStrip)) := by
  constructor
  · exact fun children branches => commitFilterAux_no_merge children branches
  · intro c1 c2
    obtain ⟨h1, h2⟩ := dedupGo_spec (c1 ++ c2) []
    refine ⟨h1, fun m => ?_⟩
    unfold get_merge_commits_dedup
    rw [h2 m]
    simp

/-- C8, witness: the filter drops a merge message, keeps its child, and
the dedup of overlapping parent lists is duplicate-free. -/
theorem claim_C8_witness :
    (txt "[fix] x") ∈ commitFilterAux (fun _ => []) [] 2
      [txt "Merge branch x", txt "[fix] x"] [] ∧
    is_merge_commit_message (pyStrip (txt "[fix] x")) = false ∧
    ((get_merge_commits_dedup [txt "a"] [txt "a", txt "b"]).map pyStrip).Nodup :=
  ⟨by decide,
    claim_C8.1 (fun _ => []) [] 2 [txt "Merge branch x", txt "[fix] x"] []
      (txt "[fix] x") (by decide),
    (claim_C8.2 [txt "a"] [txt "a", txt "b"]).1⟩

/-- C9: `parse_existing_issue` is total — on every body, including empty
and malformed ones, it returns a result instead of raising; missing
regions come back empty. -/
theorem claim_C9 :
    (∀ (body : Text), (parse_existing_issue body).isSome) ∧
      parse_existing_issue [] = some ⟨[], []⟩ :=
  ⟨parse_existing_issue_isSome, by decide⟩

/-- C9, counterexample to the original claim: the GitHubAutomation
`_parse_existing_todos` raises `IndexError` (modelled by `none`) on a body
whose todo section holds the truncated line `- [`. -/
theorem claim_C9_counterexample :
    ¬ (GHAuto.parseExistingTodos (txt "[Todo]\n- [")).isSome := by decide

/-- C10: substring-based duplicate detection is over-approximate: a commit
message with an empty body is classified as already logged as soon as its
stripped title line occurs anywhere inside any branch section's
accumulated content. -/
theorem claim_C10 (msg : Text) (branches : List (Text × Text)) (bc : Text × Text)
    (hmem : bc ∈ branches)
    (hbody : pyStrip (pyJoin ['\n'] ((pySplitChar '\n' msg).drop 1)) = [])
    (htitle : containsSub (pyStrip ((pySplitChar '\n' msg).headD [])) bc.2 = true) :
    is_commit_already_logged msg branches = true := by
  unfold is_commit_already_logged
  rw [List.any_eq_true]
  refine ⟨bc, hmem, ?_⟩
  rw [htitle, hbody]
  rfl

/-- C10, witness: a title-only commit message whose title occurs inside
another commit's rendered block is flagged as already logged. -/
theorem claim_C10_witness :
    (pyStrip (pyJoin ['\n'] ((pySplitChar '\n' (txt "fix bug")).drop 1)) = [] ∧
     containsSub (pyStrip ((pySplitChar '\n' (txt "fix bug")).headD []))
       (txt "log of fix bug etc") = true) ∧
    is_commit_already_logged (txt "fix bug")
      [(txt "Main", txt "log of fix bug etc")] = true :=
  ⟨⟨by decide, by decide⟩,
    claim_C10 (txt "fix bug") [(txt "Main", txt "log of fix bug etc")]
      (txt "Main", txt "log of fix bug etc") (by decide) (by decide) (by decide)⟩

end DSR
